import Mathlib

/-!
Verification of the caption (VTT) pipeline of the youtube-downloader
repository: parser, cleaner, batch translator, writer and the thin
orchestrator, shallowly embedded from `src/core/translation.py`,
`src/core/clean_subtitles.py` and `src/core/progress.py`.

Python strings are modelled as `List Char`; file contents are a single
`List Char` with newline characters.  Floating point configuration values
(the rate-limit delay) are modelled over `ℚ`.  The external translation
service is a function from batch number to either a raw response blob or
an error (`Except Unit (List Char)`); exceptions raised by Python code are
modelled with `Except`, and `try/except` blocks by total functions.
-/

namespace YTD

/-- Model of Python's default whitespace set used by `str.strip`, `str.split`
and the regex class `\s` (ASCII part). -/
def pyIsSpace (c : Char) : Bool :=
  c = ' ' || c = '\t' || c = '\n' || c = '\r' || c = '\x0b' || c = '\x0c'

/-- Model of Python `str.strip()`: drop leading and trailing whitespace. -/
def pyStrip (s : List Char) : List Char :=
  ((s.dropWhile pyIsSpace).reverse.dropWhile pyIsSpace).reverse

/-- Model of Python `str.lower()` (ASCII case folding). -/
def pyLower (s : List Char) : List Char :=
  s.map Char.toLower

/-- Model of Python `str.isdigit()`: nonempty and all digits. -/
def pyIsDigit (s : List Char) : Bool :=
  !s.isEmpty && s.all Char.isDigit

/-- Model of Python `s.split('\n')`: split on every newline, keeping empty
pieces. -/
def splitLines (s : List Char) : List (List Char) :=
  match s with
  | [] => [[]]
  | c :: rest =>
    if c = '\n' then [] :: splitLines rest
    else
      match splitLines rest with
      | [] => [[c]]
      | piece :: pieces => (c :: piece) :: pieces

/-- Model of `'-->' in line` (substring containment test). -/
def hasArrow (s : List Char) : Bool :=
  decide (['-', '-', '>'] <:+: s)

/-- Model of `line.startswith('WEBVTT')`. -/
def startsWebvtt (s : List Char) : Bool :=
  List.isPrefixOf "WEBVTT".toList s

/-- Model of `re.split(r'\n\n+', content)`: cut the input at every maximal
run of two or more newlines.  `acc` holds the reversed current piece. -/
def splitBlocksAux (acc : List Char) (s : List Char) : List (List Char) :=
  match s with
  | [] => [acc.reverse]
  | c :: rest =>
    if c = '\n' then
      match rest with
      | [] => [(c :: acc).reverse]
      | c2 :: rest2 =>
        if c2 = '\n' then
          acc.reverse :: splitBlocksAux [] (rest2.dropWhile (fun x => x = '\n'))
        else
          splitBlocksAux (c :: acc) (c2 :: rest2)
    else
      splitBlocksAux (c :: acc) rest
  termination_by s.length
  decreasing_by
  all_goals simp only [List.length_cons]
  all_goals first
    | omega
    | exact lt_of_le_of_lt ((List.dropWhile_sublist _).length_le) (by omega)

/-- `re.split(r'\n\n+', s)`. -/
def splitBlocks (s : List Char) : List (List Char) :=
  splitBlocksAux [] s

/-- Model of matching the regex `\d{2}:\d{2}:\d{2}\.\d{3}` against a prefix of
the input, returning the 12 matched characters and the remainder. -/
def matchTimestamp (s : List Char) : Option (List Char × List Char) :=
  match s with
  | a :: b :: c :: d :: e :: f :: g :: h :: i :: j :: k :: l :: rest =>
    if a.isDigit && b.isDigit && c = ':' && d.isDigit && e.isDigit && f = ':'
        && g.isDigit && h.isDigit && i = '.' && j.isDigit && k.isDigit && l.isDigit then
      some ([a, b, c, d, e, f, g, h, i, j, k, l], rest)
    else none
  | _ => none

/-- Model of consuming `\s+`: at least one whitespace character, greedily. -/
def dropSpaces1 (s : List Char) : Option (List Char) :=
  match s with
  | [] => none
  | c :: rest => if pyIsSpace c then some (rest.dropWhile pyIsSpace) else none

/-- Model of `re.match(r'(\d{2}:\d{2}:\d{2}\.\d{3})\s+-->\s+(\d{2}:\d{2}:\d{2}\.\d{3})', line)`
from `SubtitleTranslator._parse_vtt_file`, returning the two captured
timestamps.  `re.match` anchors at the start only, so trailing characters are
ignored. -/
def matchTimingLine (s : List Char) : Option (List Char × List Char) := do
  let (t1, r1) ← matchTimestamp s
  let r2 ← dropSpaces1 r1
  if List.isPrefixOf ['-', '-', '>'] r2 then do
    let r4 ← dropSpaces1 (r2.drop 3)
    let (t2, _) ← matchTimestamp r4
    pure (t1, t2)
  else none

/-- `VTTEntry` dataclass from `src/core/translation.py`. -/
structure VTTEntry where
  index : Nat
  start_time : List Char
  end_time : List Char
  text : List Char
  original_line : List Char
  deriving Repr, DecidableEq

/-- The last line of a block containing `-->` (the Python loop overwrites
`timing_line` on every hit, so the last one wins). -/
def timingLineOf (lines : List (List Char)) : Option (List Char) :=
  (lines.filter hasArrow).getLast?

/-- The stripped text lines of a block: lines without `-->` whose stripped
form is nonempty and which are not pure digit strings (cue indices). -/
def textLinesOf (lines : List (List Char)) : List (List Char) :=
  (lines.filter (fun l => !hasArrow l && !(pyStrip l).isEmpty && !pyIsDigit l)).map pyStrip

/-- Processing of one block inside `SubtitleTranslator._parse_vtt_file`:
skip header/blank blocks, find the timing line and the text lines, and keep
the block only when the timing line matches the timestamp regex. -/
def parseBlock (i : Nat) (block : List Char) : Option VTTEntry :=
  let lines := splitLines (pyStrip block)
  if lines.isEmpty || startsWebvtt (lines.headD []) || !(lines.any (fun l => !(pyStrip l).isEmpty)) then
    none
  else
    match timingLineOf lines with
    | none => none
    | some timing =>
      let tls := textLinesOf lines
      if tls.isEmpty then none
      else
        match matchTimingLine timing with
        | none => none
        | some (t1, t2) =>
          some ⟨i, t1, t2, List.intercalate [' '] tls, block⟩

/-- `SubtitleTranslator._parse_vtt_file`, given the file's content. -/
def parse_vtt_file (content : List Char) : List VTTEntry :=
  ((splitBlocks (pyStrip content)).enum).filterMap fun p => parseBlock p.1 p.2

/-! ### Caption cleaner (`src/core/clean_subtitles.py`) -/

/-- Model of one match attempt of `re.sub(r'<\d{2}:\d{2}:\d{2}\.\d{3}>', '', text)`
at the current position: a `<`, exactly twelve timestamp characters, then `>`. -/
def matchTsTag (s : List Char) : Option (List Char) :=
  match s with
  | '<' :: rest =>
    match matchTimestamp rest with
    | some (_, '>' :: rest2) => some rest2
    | _ => none
  | _ => none

theorem matchTimestamp_spec {s t r : List Char} (h : matchTimestamp s = some (t, r)) :
    t.length = 12 ∧ s = t ++ r := by
  unfold matchTimestamp at h
  split at h
  · split at h
    · simp only [Option.some.injEq, Prod.mk.injEq] at h
      obtain ⟨h1, h2⟩ := h
      subst h1; subst h2
      simp
    · exact absurd h (by simp)
  · exact absurd h (by simp)

theorem matchTsTag_length {s r : List Char} (h : matchTsTag s = some r) :
    r.length < s.length := by
  unfold matchTsTag at h
  split at h
  · rename_i rest
    split at h
    · rename_i t rest2 heq
      have hr : rest2 = r := Option.some.inj h
      obtain ⟨h1, h2⟩ := matchTimestamp_spec heq
      subst hr
      rw [h2]
      simp only [List.length_cons, List.length_append, h1]
      omega
    · exact absurd h (by simp)
  · exact absurd h (by simp)

/-- `re.sub(r'<\d{2}:\d{2}:\d{2}\.\d{3}>', '', text)`: delete every
(non-overlapping, left-to-right) timestamp tag. -/
def subTsTags : List Char → List Char
  | [] => []
  | c :: rest =>
    match hm : matchTsTag (c :: rest) with
    | some rest2 => subTsTags rest2
    | none => c :: subTsTags rest
  termination_by s => s.length
  decreasing_by
  · have := matchTsTag_length hm
    omega
  · simp

/-- The remainder after the first `>` in the input, if any: the continuation
point of a `<[^>]*>` match. -/
def afterGt (s : List Char) : Option (List Char) :=
  match s with
  | [] => none
  | c :: rest => if c = '>' then some rest else afterGt rest

theorem afterGt_length {s r : List Char} (h : afterGt s = some r) :
    r.length < s.length := by
  induction s with
  | nil => simp [afterGt] at h
  | cons c rest ih =>
    unfold afterGt at h
    split at h
    · simp only [Option.some.injEq] at h
      subst h
      simp
    · have := ih h
      simp only [List.length_cons]
      omega

/-- `re.sub(r'<[^>]*>', '', text)`: at each `<`, if a `>` follows, the whole
span through that first `>` is deleted; a `<` with no later `>` never matches
and the remainder is kept verbatim. -/
def subHtmlTags : List Char → List Char
  | [] => []
  | c :: rest =>
    if c = '<' then
      match hm : afterGt rest with
      | some rest2 => subHtmlTags rest2
      | none => c :: rest
    else
      c :: subHtmlTags rest
  termination_by s => s.length
  decreasing_by
  · have := afterGt_length hm
    simp only [List.length_cons]
    omega
  · simp

/-- `re.sub(r'\s+', ' ', text)`: replace every maximal whitespace run with a
single space. -/
def collapseWs (s : List Char) : List Char :=
  match s with
  | [] => []
  | c :: rest =>
    if pyIsSpace c then ' ' :: collapseWs (rest.dropWhile pyIsSpace)
    else c :: collapseWs rest
  termination_by s.length
  decreasing_by
  all_goals simp only [List.length_cons]
  all_goals first
    | omega
    | exact lt_of_le_of_lt ((List.dropWhile_sublist _).length_le) (by omega)

/-- `clean_html_tags` from `src/core/clean_subtitles.py`: strip timestamp
tags, strip remaining angle-bracket tags, collapse whitespace runs, strip. -/
def clean_html_tags (text : List Char) : List Char :=
  pyStrip (collapseWs (subHtmlTags (subTsTags text)))

/-- The hardcoded artifact-phrase list of `_clean_vtt_block`. -/
def artifactPhrases : List (List Char) :=
  ["sau đây".toList, "bản dịch".toList, "phụ đề".toList,
   "vietnamese translation".toList, "here's the vietnamese".toList,
   "here are the vietnamese".toList]

/-- Model of `any(phrase in line.lower() for phrase in [...])`. -/
def hasArtifact (line : List Char) : Bool :=
  artifactPhrases.any fun p => decide (p <:+: pyLower line)

/-- The per-line loop body of `_clean_vtt_block`, producing the lines kept
(in order) before the final empty-line filter. -/
def cleanBlockLines (remove_artifacts remove_html_tags : Bool) :
    List (List Char) → List (List Char)
  | [] => []
  | line :: rest =>
    let tail := cleanBlockLines remove_artifacts remove_html_tags rest
    if hasArrow line then
      line :: tail
    else if !(pyStrip line).isEmpty && !pyIsDigit line then
      if remove_artifacts && hasArtifact line then
        tail
      else if remove_html_tags then
        let cleaned := clean_html_tags line
        if !(pyStrip cleaned).isEmpty then cleaned :: tail else tail
      else
        line :: tail
    else
      line :: tail

/-- `_clean_vtt_block` from `src/core/clean_subtitles.py`. -/
def clean_vtt_block (lines : List (List Char))
    (remove_artifacts remove_html_tags : Bool) : Bool × List (List Char) :=
  if lines.isEmpty || !(lines.any fun l => !(pyStrip l).isEmpty) then
    (false, [])
  else
    let cleaned := cleanBlockLines remove_artifacts remove_html_tags lines
    let final := cleaned.filter fun l => !(pyStrip l).isEmpty
    (!final.isEmpty && (final.any fun l => !(pyStrip l).isEmpty), final)

/-! ### Batch translator (`SubtitleTranslator._translate_batch`) -/

/-- The separator token `---SEPARATOR---` used to split the service's
response blob. -/
def sepTok : List Char := "---SEPARATOR---".toList

/-- The separator used when joining a batch into one request,
`'\n---SEPARATOR---\n'`. -/
def sepJoin : List Char := "\n---SEPARATOR---\n".toList

/-- Model of Python `s.split('---SEPARATOR---')`: split on each
non-overlapping, left-to-right occurrence of the token, keeping empty
pieces. -/
def splitSep (s : List Char) : List (List Char) :=
  match s with
  | [] => [[]]
  | c :: rest =>
    if sepTok.isPrefixOf (c :: rest) then
      [] :: splitSep ((c :: rest).drop sepTok.length)
    else
      match splitSep rest with
      | [] => [[c]]
      | p :: ps => (c :: p) :: ps
  termination_by s.length
  decreasing_by
  all_goals simp only [List.length_drop, List.length_cons]
  · have hs : sepTok.length = 15 := by decide
    omega
  · omega

/-- The pad loop of `_translate_batch`:
`while len(translated_batch) < len(batch): translated_batch.append(batch[len(translated_batch)])`. -/
def reconcilePad (batch : List (List Char)) (ts : List (List Char)) : List (List Char) :=
  if h : ts.length < batch.length then
    reconcilePad batch (ts ++ [batch.getD ts.length []])
  else ts
  termination_by batch.length - ts.length
  decreasing_by simp; omega

/-- Handling of one batch in `_translate_batch`: on a successful service
response, strip the blob, split it on the separator token, strip each piece,
and pad/truncate on a count mismatch; on any exception, fall back to the
batch's original texts. -/
def processBatch (resp : Except Unit (List Char)) (batch : List (List Char)) :
    List (List Char) :=
  match resp with
  | .error _ => batch
  | .ok blob =>
    let tb := (splitSep (pyStrip blob)).map pyStrip
    if tb.length ≠ batch.length then (reconcilePad batch tb).take batch.length
    else tb

/-- The inter-batch delay `max(TRANSLATION_RATE_LIMIT_DELAY,
TRANSLATION_RATE_LIMIT_DELAY * (1.0 - (batch_size / 200)))`, over `ℚ`. -/
def rateDelay (D : ℚ) (bs : Nat) : ℚ :=
  max D (D * (1 - (bs : ℚ) / 200))

/-- The loop `for batch_idx in range(0, len(texts), batch_size)` of
`_translate_batch`, with `i` the current `batch_idx`.  The external service
is a function of the batch number and the joined request text.  Returns the
accumulated output texts and the list of inter-batch delays slept.  The
`time.sleep` sits inside the `try:` block after the successful extend, so a
batch whose service call raises skips the sleep and an inter-batch delay is
slept only on the success path (and not after the last batch).  The guard
`0 < bs` reflects that `range` requires a nonzero step. -/
def translateGo (svc : Nat → List Char → Except Unit (List Char)) (D : ℚ)
    (texts : List (List Char)) (bs : Nat) (i : Nat) :
    List (List Char) × List ℚ :=
  if h : 0 < bs ∧ i < texts.length then
    let batch := (texts.drop i).take bs
    let resp := svc (i / bs) (List.intercalate sepJoin batch)
    let rest := translateGo svc D texts bs (i + bs)
    (processBatch resp batch ++ rest.1,
      (match resp with
       | .ok _ => if i + bs < texts.length then [rateDelay D bs] else []
       | .error _ => []) ++ rest.2)
  else ([], [])
  termination_by texts.length - i
  decreasing_by omega

/-- `SubtitleTranslator._translate_batch` (first component: the returned
texts; second: the delays slept between batches). -/
def translate_batch (svc : Nat → List Char → Except Unit (List Char)) (D : ℚ)
    (texts : List (List Char)) (bs : Nat) : List (List Char) × List ℚ :=
  translateGo svc D texts bs 0

/-- `total_batches = (len(texts) + batch_size - 1) // batch_size`. -/
def numBatches (L bs : Nat) : Nat := (L + bs - 1) / bs

/-! ### Caption writer (`SubtitleTranslator._create_translated_vtt`) -/

/-- The `WEBVTT` header line. -/
def webvttHeader : List Char := "WEBVTT".toList

/-- The timing line written for an entry: `f"{entry.start_time} --> {entry.end_time}"`. -/
def formatTiming (e : VTTEntry) : List Char :=
  e.start_time ++ " --> ".toList ++ e.end_time

/-- The entry loop of `_create_translated_vtt`: `ti` is the running cursor
`text_index`; an entry with nonempty stripped text consumes the next
translated text while the cursor is in range, otherwise the original text is
used.  Each entry contributes its timing line, one text line, and an empty
separator line. -/
def buildBody (translated : List (List Char)) :
    List VTTEntry → Nat → List (List Char)
  | [], _ => []
  | e :: es, ti =>
    if (pyStrip e.text).isEmpty = false ∧ ti < translated.length then
      formatTiming e :: translated.getD ti [] :: [] :: buildBody translated es (ti + 1)
    else
      formatTiming e :: e.text :: [] :: buildBody translated es ti

/-- The full line list written by `_create_translated_vtt`:
`["WEBVTT", ""]` then the entry blocks. -/
def vttContentLines (entries : List VTTEntry) (translated : List (List Char)) :
    List (List Char) :=
  [webvttHeader, []] ++ buildBody translated entries 0

/-- The content written by `_create_translated_vtt`: the lines joined with
`'\n'.join(vtt_content)`. -/
def vttContent (entries : List VTTEntry) (translated : List (List Char)) :
    List Char :=
  List.intercalate ['\n'] (vttContentLines entries translated)

/-- Model of `pathlib.Path(name).stem` for ordinary file names: the part of
`name` before its final extension; a lone leading dot is not an extension. -/
def upToLastDot : List Char → List Char
  | [] => []
  | c :: rest =>
    if '.' ∈ rest then c :: upToLastDot rest
    else if c = '.' then []
    else c :: rest

/-- `Path(name).stem`. -/
def pyStem : List Char → List Char
  | [] => []
  | c :: rest =>
    if c = '.' then c :: (if '.' ∈ rest then upToLastDot rest else rest)
    else upToLastDot (c :: rest)

/-- `if base_name.endswith('.en'): base_name = base_name[:-3]`. -/
def stripEn (base : List Char) : List Char :=
  if List.isSuffixOf ".en".toList base then base.take (base.length - 3)
  else base

/-- The fixed name-to-code table of `SubtitleTranslator._get_language_code`. -/
def languageCodes : List (List Char × List Char) :=
  [("vietnamese".toList, "vi".toList), ("spanish".toList, "es".toList),
   ("french".toList, "fr".toList), ("german".toList, "de".toList),
   ("chinese".toList, "zh".toList), ("japanese".toList, "ja".toList),
   ("korean".toList, "ko".toList)]

/-- `SubtitleTranslator._get_language_code`: lowercase lookup with fallback
`'trans'`. -/
def get_language_code (target : List Char) : List Char :=
  match languageCodes.lookup (pyLower target) with
  | some c => c
  | none => "trans".toList

/-- The output filename derived in `_create_translated_vtt`:
`f"{base_name}.{language_code}.vtt"` after stripping a trailing `.en` from
the source stem. -/
def translatedName (srcName : List Char) (target : List Char) : List Char :=
  stripEn (pyStem srcName) ++ '.' :: (get_language_code target ++ ".vtt".toList)

/-- `SubtitleTranslator._create_translated_vtt`: the file name it writes to
and the content it writes. -/
def create_translated_vtt (srcName : List Char) (entries : List VTTEntry)
    (translated : List (List Char)) (target : List Char) :
    List Char × List Char :=
  (translatedName srcName target, vttContent entries translated)

/-- The parse-then-write pass of the pipeline: write back the parsed entries
with the translated-text list equal to the extracted original texts
(`texts_to_translate = [entry.text for entry in vtt_entries if entry.text.strip()]`). -/
def roundtrip (content : List Char) : List Char :=
  let entries := parse_vtt_file content
  let texts := (entries.filter fun e => (pyStrip e.text).isEmpty = false).map (·.text)
  vttContent entries texts

/-! ### `translate_vtt_file` with progress-callback exceptions -/

/-- The first batch number (if any) at which the per-batch callback
invocation raises: batch `t` is callback invocation `2 + t`. -/
def firstBatchRaise (cb : Nat → Bool) (nB : Nat) : Option Nat :=
  (List.range nB).find? fun t => cb (2 + t)

/-- The `except` handler of `translate_vtt_file`: one more callback
invocation (the failure message), unguarded — if it raises, the exception
escapes; otherwise the function returns `None`. -/
def exceptHandler (cb : Nat → Bool) (j : Nat) :
    Except Unit (Option (List Char × List Char)) :=
  if cb j then .error () else .ok none

/-- `SubtitleTranslator.translate_vtt_file`, given the file's content.
`cb k` tells whether the `k`-th callback invocation raises.  Milestones:
invocation 0 is "Parsing", 1 is "Translating N entries", `2 + t` is the
start of batch `t`, then "Rebuilding" and "completed".  A callback raise at
any milestone propagates to the enclosing `try`, whose handler is
`exceptHandler`.  The result is the `(filename, content)` pair written, or
`none` when the function returns `None`. -/
def translate_vtt_file (srcName : List Char) (content : List Char)
    (svc : Nat → List Char → Except Unit (List Char)) (D : ℚ) (bs : Nat)
    (target : List Char) (cb : Nat → Bool) :
    Except Unit (Option (List Char × List Char)) :=
  if cb 0 then exceptHandler cb 1 else
  let entries := parse_vtt_file content
  if entries.isEmpty then .ok none else
  let texts := (entries.filter fun e => (pyStrip e.text).isEmpty = false).map (·.text)
  if texts.isEmpty then .ok none else
  if cb 1 then exceptHandler cb 2 else
  let nB := numBatches texts.length bs
  match firstBatchRaise cb nB with
  | some t => exceptHandler cb (2 + t + 1)
  | none =>
    let translated := (translate_batch svc D texts bs).1
    if translated.isEmpty || translated.length ≠ texts.length then .ok none else
    if cb (2 + nB) then exceptHandler cb (2 + nB + 1) else
    let out := create_translated_vtt srcName entries translated target
    if cb (2 + nB + 1) then exceptHandler cb (2 + nB + 2) else
    .ok (some out)

/-! ### Download progress hook (`ProgressTracker.create_progress_hook`) -/

/-- `DownloadProgress` dataclass (numeric fields over `ℚ`). -/
structure DownloadProgress where
  status : List Char
  percent : ℚ
  downloaded_bytes : ℚ
  total_bytes : Option ℚ
  speed : Option ℚ
  eta : Option ℚ
  filename : Option (List Char)
  elapsed : ℚ
  deriving Repr, DecidableEq

/-- The default `DownloadProgress()` value. -/
def initProgress : DownloadProgress :=
  ⟨"starting".toList, 0, 0, none, none, none, none, 0⟩

/-- The tracker state: `start_time` and `current_progress`. -/
structure HookState where
  start_time : Option ℚ
  current_progress : DownloadProgress
  deriving Repr, DecidableEq

/-- The fields of the yt-dlp progress dict `d` read by the hook. -/
structure HookDict where
  status : List Char
  downloaded_bytes : Option ℚ
  total_bytes : Option ℚ
  total_bytes_estimate : Option ℚ
  speed : Option ℚ
  eta : Option ℚ
  filename : Option (List Char)
  deriving Repr, DecidableEq

/-- The state update performed by the hook body (before the callback call),
with `now` the value of `time.time()`. -/
def hookUpdate (now : ℚ) (d : HookDict) (s : HookState) : HookState :=
  let start := s.start_time.getD now
  let elapsed := now - start
  if d.status = "downloading".toList then
    let downloaded := d.downloaded_bytes.getD 0
    let total :=
      match d.total_bytes with
      | some t => if t = 0 then d.total_bytes_estimate else some t
      | none => d.total_bytes_estimate
    let percent : ℚ :=
      match total with
      | some t => if 0 < t then downloaded / t * 100 else 0
      | none => 0
    ⟨some start,
     ⟨"downloading".toList, percent, downloaded, total, d.speed, d.eta,
      some (d.filename.getD []), elapsed⟩⟩
  else if d.status = "finished".toList then
    ⟨some start,
     ⟨"finished".toList, 100, (s.current_progress.total_bytes).getD 0,
      s.current_progress.total_bytes, none, none, some (d.filename.getD []), elapsed⟩⟩
  else if d.status = "error".toList then
    ⟨some start, ⟨"error".toList, 0, 0, none, none, none, none, elapsed⟩⟩
  else
    ⟨some start, s.current_progress⟩

/-- `progress_hook` from `ProgressTracker.create_progress_hook`: update the
state, then invoke the user callback inside `try/except: pass` — the
callback's outcome (`cbRaises` telling whether it raises on the given
progress value) cannot change the resulting state, and no exception
escapes. -/
def progress_hook (now : ℚ) (d : HookDict)
    (cbRaises : DownloadProgress → Bool) (s : HookState) : HookState :=
  let s2 := hookUpdate now d s
  let _ := cbRaises s2.current_progress
  s2

/-! ### Orchestrator (`translate_subtitle_files`) -/

/-- The result of `translate_subtitle_files`: the returned path list, and
the list of files actually passed to `translator.translate_vtt_file`. -/
structure OrchResult where
  result : List (List Char)
  invoked : List (List Char)
  deriving Repr, DecidableEq

/-- The language-tag markers of the skip test
`any(code in vtt_file.stem for code in ['.vi', ...])`. -/
def knownCodeMarks : List (List Char) :=
  [".vi".toList, ".es".toList, ".fr".toList, ".de".toList,
   ".zh".toList, ".ja".toList, ".ko".toList, ".trans".toList]

/-- `translate_subtitle_files` from `src/core/translation.py`.  The folder
is modelled by the list of its file names (`files`); `*.vtt` globbing keeps
names ending in `.vtt`; `exists()` is membership in `files`; `api_key` and
`client_ok` model the presence of an API key and a successfully initialised
client; `translatorResult f` is what `translate_vtt_file` would return for
file `f`. -/
def translate_subtitle_files (files : List (List Char)) (target : List Char)
    (api_key : Bool) (client_ok : Bool)
    (translatorResult : List Char → Option (List Char)) : OrchResult :=
  let vtt_files := files.filter fun f => List.isSuffixOf ".vtt".toList f
  if vtt_files.isEmpty then ⟨[], []⟩
  else
    let language_code := get_language_code target
    let native_vi := vtt_files.filter fun f => List.isSuffixOf ".vi".toList (pyStem f)
    if native_vi.isEmpty = false then ⟨native_vi, []⟩
    else
      let existing := vtt_files.filterMap fun f =>
        let expected := stripEn (pyStem f) ++ '.' :: (language_code ++ ".vtt".toList)
        if expected ∈ files then some expected else none
      if existing.isEmpty = false then ⟨existing, []⟩
      else if api_key = false then ⟨[], []⟩
      else if client_ok = false then ⟨[], []⟩
      else
        let work := vtt_files.filter fun f =>
          !(knownCodeMarks.any fun code => decide (code <:+: pyStem f))
        ⟨work.filterMap translatorResult, work⟩

/-! ### Basic lemmas about the string models -/

theorem head?_dropWhile_not (p : Char → Bool) :
    ∀ (l : List Char) {c : Char}, (l.dropWhile p).head? = some c → p c = false := by
  intro l
  induction l with
  | nil => intro c h; simp [List.dropWhile] at h
  | cons a t ih =>
    intro c h
    rw [List.dropWhile_cons] at h
    by_cases hp : p a
    · rw [if_pos hp] at h
      exact ih h
    · rw [if_neg hp] at h
      simp only [List.head?_cons, Option.some.injEq] at h
      subst h
      simpa using hp

theorem getLast?_dropWhile (p : Char → Bool) :
    ∀ (l : List Char), l.dropWhile p ≠ [] → (l.dropWhile p).getLast? = l.getLast? := by
  intro l
  induction l with
  | nil => intro h; simp [List.dropWhile] at h
  | cons a t ih =>
    intro h
    rw [List.dropWhile_cons] at h ⊢
    by_cases hp : p a
    · rw [if_pos hp] at h ⊢
      have ht : t ≠ [] := by
        intro he; subst he; simp [List.dropWhile] at h
      rw [ih h]
      cases t with
      | nil => exact absurd rfl ht
      | cons b l => rw [List.getLast?_cons_cons]
    · rw [if_neg hp]

theorem pyStrip_head {s : List Char} {c : Char}
    (h : (pyStrip s).head? = some c) : pyIsSpace c = false := by
  unfold pyStrip at h
  rw [List.head?_reverse] at h
  set v := (s.dropWhile pyIsSpace).reverse.dropWhile pyIsSpace with hv
  have hvne : v ≠ [] := by
    intro he; rw [he] at h; simp at h
  rw [getLast?_dropWhile _ _ hvne, List.getLast?_reverse] at h
  exact head?_dropWhile_not pyIsSpace _ h

theorem pyStrip_getLast {s : List Char} {c : Char}
    (h : (pyStrip s).getLast? = some c) : pyIsSpace c = false := by
  unfold pyStrip at h
  rw [List.getLast?_reverse] at h
  exact head?_dropWhile_not pyIsSpace _ h

theorem dropWhile_eq_self_of_head (p : Char → Bool) (s : List Char)
    (h : ∀ c, s.head? = some c → p c = false) : s.dropWhile p = s := by
  cases s with
  | nil => rfl
  | cons a t =>
    rw [List.dropWhile_cons, if_neg]
    simp [h a rfl]

theorem pyStrip_eq_self {s : List Char}
    (h1 : ∀ c, s.head? = some c → pyIsSpace c = false)
    (h2 : ∀ c, s.getLast? = some c → pyIsSpace c = false) : pyStrip s = s := by
  unfold pyStrip
  rw [dropWhile_eq_self_of_head _ _ h1, dropWhile_eq_self_of_head, List.reverse_reverse]
  intro c hc
  rw [List.head?_reverse] at hc
  exact h2 c hc

theorem pyStrip_idem (s : List Char) : pyStrip (pyStrip s) = pyStrip s :=
  pyStrip_eq_self (fun _ h => pyStrip_head h) (fun _ h => pyStrip_getLast h)

theorem pyStrip_infix_self (s : List Char) : pyStrip s <:+: s := by
  unfold pyStrip
  have h1 : s.dropWhile pyIsSpace <:+ s := List.dropWhile_suffix _
  have h2 : (s.dropWhile pyIsSpace).reverse.dropWhile pyIsSpace <:+
      (s.dropWhile pyIsSpace).reverse := List.dropWhile_suffix _
  have h3 : ((s.dropWhile pyIsSpace).reverse.dropWhile pyIsSpace).reverse <+:
      (s.dropWhile pyIsSpace) := by
    rw [← List.reverse_suffix]
    simpa using h2
  exact h3.isInfix.trans h1.isInfix

theorem splitLines_cons_nl (t : List Char) :
    splitLines ('\n' :: t) = [] :: splitLines t := by
  rw [splitLines]
  simp

theorem splitLines_cons_other {c : Char} (hc : c ≠ '\n') (t : List Char) :
    splitLines (c :: t) =
      match splitLines t with
      | [] => [[c]]
      | piece :: pieces => (c :: piece) :: pieces := by
  rw [splitLines]
  simp [hc]

theorem splitLines_no_nl {s : List Char} (h : '\n' ∉ s) : splitLines s = [s] := by
  induction s with
  | nil => rfl
  | cons c t ih =>
    have hc : c ≠ '\n' := fun he => h (he ▸ List.mem_cons_self c t)
    rw [splitLines_cons_other hc, ih (fun hm => h (List.mem_cons_of_mem c hm))]

theorem splitLines_ne_nil (s : List Char) : splitLines s ≠ [] := by
  cases s with
  | nil => simp [splitLines]
  | cons c t =>
    by_cases hc : c = '\n'
    · subst hc; rw [splitLines_cons_nl]; simp
    · rw [splitLines_cons_other hc]
      rcases splitLines t with _ | ⟨p, ps⟩ <;> simp

theorem splitLines_append {a b : List Char} (ha : '\n' ∉ a) :
    splitLines (a ++ '\n' :: b) = a :: splitLines b := by
  induction a with
  | nil =>
    rw [List.nil_append, splitLines_cons_nl]
  | cons c t ih =>
    have hc : c ≠ '\n' := fun he => ha (he ▸ List.mem_cons_self c t)
    have ht : '\n' ∉ t := fun hm => ha (List.mem_cons_of_mem c hm)
    rw [List.cons_append, splitLines_cons_other hc, ih ht]

theorem mem_splitLines_no_nl : ∀ {s p : List Char}, p ∈ splitLines s → '\n' ∉ p := by
  intro s
  induction s with
  | nil =>
    intro p hp
    simp only [splitLines, List.mem_singleton] at hp
    subst hp; simp
  | cons c t ih =>
    intro p hp
    unfold splitLines at hp
    by_cases hc : c = '\n'
    · rw [if_pos hc] at hp
      rcases List.mem_cons.mp hp with h | h
      · subst h; simp
      · exact ih h
    · rw [if_neg hc] at hp
      rcases he : splitLines t with _ | ⟨q, qs⟩
      · rw [he] at hp
        simp only [List.mem_singleton] at hp
        subst hp
        intro hm
        rcases List.mem_cons.mp hm with h | h
        · exact hc h.symm
        · simp at h
      · rw [he] at hp
        rcases List.mem_cons.mp hp with h | h
        · subst h
          intro hm
          rcases List.mem_cons.mp hm with h | h
          · exact hc h.symm
          · exact ih (he ▸ List.mem_cons_self q qs) h
        · exact ih (he ▸ List.mem_cons_of_mem q h)

theorem intercalate_nil (sep : List Char) : List.intercalate sep [] = [] := rfl

theorem intercalate_single (sep x : List Char) : List.intercalate sep [x] = x := by
  simp [List.intercalate, List.intersperse]

theorem intercalate_cons₂ (sep x y : List Char) (ys : List (List Char)) :
    List.intercalate sep (x :: y :: ys) = x ++ sep ++ List.intercalate sep (y :: ys) := by
  simp [List.intercalate, List.intersperse]

theorem prefix_append_elim {pat A B : List Char} {c : Char} (hc : c ∉ pat)
    (h : pat <+: A ++ c :: B) : pat <+: A := by
  induction A generalizing pat with
  | nil =>
    cases pat with
    | nil => exact List.nil_prefix
    | cons p ps =>
      exfalso
      rcases h with ⟨t, ht⟩
      rw [List.nil_append, List.cons_append] at ht
      simp only [List.cons.injEq] at ht
      exact hc (ht.1 ▸ List.mem_cons_self p ps)
  | cons a A' ih =>
    cases pat with
    | nil => exact List.nil_prefix
    | cons p ps =>
      rcases h with ⟨t, ht⟩
      rw [List.cons_append, List.cons_append] at ht
      simp only [List.cons.injEq] at ht
      obtain ⟨hpa, ht'⟩ := ht
      subst hpa
      have hps : ps <+: A' := ih (fun hm => hc (List.mem_cons_of_mem _ hm)) ⟨t, ht'⟩
      exact List.cons_prefix_cons.mpr ⟨rfl, hps⟩

theorem infix_append_elim {pat A B : List Char} {c : Char} (hc : c ∉ pat)
    (hne : pat ≠ []) (h : pat <:+: A ++ c :: B) : pat <:+: A ∨ pat <:+: B := by
  induction A with
  | nil =>
    rw [List.nil_append, List.infix_cons_iff] at h
    rcases h with h | h
    · exfalso
      cases pat with
      | nil => exact hne rfl
      | cons p ps =>
        rcases h with ⟨t, ht⟩
        rw [List.cons_append] at ht
        simp only [List.cons.injEq] at ht
        exact hc (ht.1 ▸ List.mem_cons_self p ps)
    · exact Or.inr h
  | cons a A' ih =>
    rw [List.cons_append, List.infix_cons_iff] at h
    rcases h with h | h
    · exact Or.inl (List.IsPrefix.isInfix (prefix_append_elim hc h))
    · rcases ih h with h' | h'
      · exact Or.inl (h'.trans (List.infix_cons List.infix_rfl))
      · exact Or.inr h'

theorem infix_intercalate_space {pat : List Char} (hp : ' ' ∉ pat) (hne : pat ≠ []) :
    ∀ {tls : List (List Char)}, pat <:+: List.intercalate [' '] tls → ∃ t ∈ tls, pat <:+: t := by
  intro tls
  induction tls with
  | nil =>
    intro h
    rw [intercalate_nil] at h
    exact absurd (List.eq_nil_of_infix_nil h) hne
  | cons x ys ih =>
    intro h
    cases ys with
    | nil =>
      rw [intercalate_single] at h
      exact ⟨x, List.mem_singleton_self x, h⟩
    | cons y ys' =>
      rw [intercalate_cons₂, List.append_assoc, List.singleton_append] at h
      rcases infix_append_elim hp hne h with h' | h'
      · exact ⟨x, List.mem_cons_self _ _, h'⟩
      · obtain ⟨t, ht, hinf⟩ := ih h'
        exact ⟨t, List.mem_cons_of_mem _ ht, hinf⟩

/-! ### Lemmas about the batch translator loop -/

theorem reconcilePad_eq_aux :
    ∀ (n : Nat) (batch ts : List (List Char)), batch.length - ts.length ≤ n →
      reconcilePad batch ts = ts ++ batch.drop ts.length := by
  intro n
  induction n with
  | zero =>
    intro batch ts h
    rw [reconcilePad, dif_neg (by omega), List.drop_eq_nil_of_le (by omega), List.append_nil]
  | succ n ih =>
    intro batch ts h
    by_cases hlt : ts.length < batch.length
    · rw [reconcilePad, dif_pos hlt, ih _ _ (by simp; omega)]
      rw [List.append_assoc]
      congr 1
      rw [List.length_append, List.length_singleton,
        List.getD_eq_getElem _ _ hlt, List.singleton_append,
        ← List.drop_eq_getElem_cons hlt]
    · rw [reconcilePad, dif_neg hlt, List.drop_eq_nil_of_le (by omega), List.append_nil]

/-- Closed form of the pad/truncate reconciliation: the missing tail comes
from the batch's own texts. -/
theorem reconcilePad_eq (batch ts : List (List Char)) :
    reconcilePad batch ts = ts ++ batch.drop ts.length :=
  reconcilePad_eq_aux (batch.length - ts.length) batch ts le_rfl

/-- What `_translate_batch` produces for one batch on a successful service
response: recover the segments by strip-split-strip, then pad the tail with
the batch's own texts and truncate to the batch length. -/
theorem processBatch_ok (blob : List Char) (batch : List (List Char)) :
    processBatch (Except.ok blob) batch =
      (((splitSep (pyStrip blob)).map pyStrip) ++
        batch.drop ((splitSep (pyStrip blob)).map pyStrip).length).take batch.length := by
  have hdef : processBatch (Except.ok blob) batch =
      (if ((splitSep (pyStrip blob)).map pyStrip).length ≠ batch.length
       then (reconcilePad batch ((splitSep (pyStrip blob)).map pyStrip)).take batch.length
       else (splitSep (pyStrip blob)).map pyStrip) := rfl
  rw [hdef]
  set tb := (splitSep (pyStrip blob)).map pyStrip with htb
  by_cases hl : tb.length = batch.length
  · rw [if_neg (by simp [hl])]
    rw [hl, List.drop_length, List.append_nil, List.take_of_length_le (le_of_eq hl)]
  · rw [if_pos hl, reconcilePad_eq]

theorem processBatch_length (r : Except Unit (List Char)) (batch : List (List Char)) :
    (processBatch r batch).length = batch.length := by
  cases r with
  | error e => rfl
  | ok blob =>
    rw [processBatch_ok, List.length_take, List.length_append, List.length_drop]
    omega

theorem translateGo_neg {svc : Nat → List Char → Except Unit (List Char)} {D : ℚ}
    {texts : List (List Char)} {bs i : Nat} (h : ¬(0 < bs ∧ i < texts.length)) :
    translateGo svc D texts bs i = ([], []) := by
  rw [translateGo, dif_neg h]

theorem translateGo_pos {svc : Nat → List Char → Except Unit (List Char)} {D : ℚ}
    {texts : List (List Char)} {bs i : Nat} (h1 : 0 < bs) (h2 : i < texts.length) :
    translateGo svc D texts bs i =
      (processBatch (svc (i / bs) (List.intercalate sepJoin ((texts.drop i).take bs)))
          ((texts.drop i).take bs) ++ (translateGo svc D texts bs (i + bs)).1,
        (match svc (i / bs) (List.intercalate sepJoin ((texts.drop i).take bs)) with
         | .ok _ => if i + bs < texts.length then [rateDelay D bs] else []
         | .error _ => []) ++
          (translateGo svc D texts bs (i + bs)).2) := by
  rw [translateGo, dif_pos ⟨h1, h2⟩]

theorem translateGo_length_aux {svc : Nat → List Char → Except Unit (List Char)} {D : ℚ}
    {texts : List (List Char)} {bs : Nat} (h : 0 < bs) :
    ∀ (n i : Nat), texts.length - i ≤ n →
      ((translateGo svc D texts bs i).1).length = texts.length - i := by
  intro n
  induction n with
  | zero =>
    intro i hi
    rw [translateGo_neg (by omega)]
    show ([] : List (List Char)).length = texts.length - i
    simp only [List.length_nil]
    omega
  | succ n ih =>
    intro i hi
    by_cases h2 : i < texts.length
    · rw [translateGo_pos h h2]
      show (processBatch _ _ ++ (translateGo svc D texts bs (i + bs)).1).length = _
      rw [List.length_append, ih (i + bs) (by omega), processBatch_length,
        List.length_take, List.length_drop]
      omega
    · rw [translateGo_neg (by omega)]
      show ([] : List (List Char)).length = texts.length - i
      simp only [List.length_nil]
      omega

/-- The translator's output has exactly one text per input text. -/
theorem translate_batch_length (svc : Nat → List Char → Except Unit (List Char)) (D : ℚ)
    (texts : List (List Char)) (bs : Nat) (h : 0 < bs) :
    ((translate_batch svc D texts bs).1).length = texts.length := by
  unfold translate_batch
  rw [translateGo_length_aux h (texts.length) 0 (by omega)]
  omega

theorem translateGo_slice (svc : Nat → List Char → Except Unit (List Char)) (D : ℚ)
    (texts : List (List Char)) {bs : Nat} (h : 0 < bs) :
    ∀ (k j : Nat), (j + k) * bs < texts.length →
      (((translateGo svc D texts bs (j * bs)).1).drop (k * bs)).take bs =
        processBatch
          (svc (j + k) (List.intercalate sepJoin ((texts.drop ((j + k) * bs)).take bs)))
          ((texts.drop ((j + k) * bs)).take bs) := by
  intro k
  induction k with
  | zero =>
    intro j hj
    rw [Nat.add_zero] at hj ⊢
    rw [translateGo_pos h (by omega)]
    simp only [Nat.zero_mul, List.drop_zero]
    rw [Nat.mul_div_cancel j h]
    set out := processBatch
      (svc j (List.intercalate sepJoin ((texts.drop (j * bs)).take bs)))
      ((texts.drop (j * bs)).take bs) with hout
    have hlen : out.length = min bs (texts.length - j * bs) := by
      rw [hout, processBatch_length, List.length_take, List.length_drop]
    by_cases hrem : bs ≤ texts.length - j * bs
    · exact List.take_left' (by omega)
    · have hstop : translateGo svc D texts bs (j * bs + bs) = ([], []) :=
        translateGo_neg (by omega)
      rw [hstop]
      simp only [List.append_nil]
      exact List.take_of_length_le (by omega)
  | succ k ih =>
    intro j hj
    have hjL : j * bs < texts.length := by
      have : j * bs ≤ (j + (k + 1)) * bs := Nat.mul_le_mul_right bs (by omega)
      omega
    rw [translateGo_pos h hjL]
    set out := processBatch
      (svc (j * bs / bs) (List.intercalate sepJoin ((texts.drop (j * bs)).take bs)))
      ((texts.drop (j * bs)).take bs) with hout
    have hlen : out.length = bs := by
      rw [hout, processBatch_length, List.length_take, List.length_drop]
      have : (j + (k + 1)) * bs = j * bs + (k + 1) * bs := by ring
      have h2 : j * bs + bs ≤ texts.length := by
        have hb : bs ≤ (k + 1) * bs := Nat.le_mul_of_pos_left bs (by omega)
        omega
      omega
    have hdrop : (out ++ (translateGo svc D texts bs (j * bs + bs)).1).drop ((k + 1) * bs) =
        ((translateGo svc D texts bs ((j + 1) * bs)).1).drop (k * bs) := by
      have h1 : (k + 1) * bs = out.length + k * bs := by
        rw [hlen, Nat.succ_mul, Nat.add_comm]
      rw [h1, List.drop_append]
      congr 2
      rw [Nat.succ_mul]
    simp only at hdrop ⊢
    rw [hdrop]
    have harith : (j + 1) + k = j + (k + 1) := by omega
    have := ih (j + 1) (by rw [harith]; exact hj)
    rw [harith] at this
    exact this

/-- Per-batch view of the translator's output: batch `k` of the output is
exactly the processed batch `k` of the input; in particular an erroring
batch is passed through unchanged. -/
theorem translate_batch_slice (svc : Nat → List Char → Except Unit (List Char)) (D : ℚ)
    (texts : List (List Char)) (bs : Nat) (h : 0 < bs) (k : Nat)
    (hk : k * bs < texts.length) :
    (((translate_batch svc D texts bs).1).drop (k * bs)).take bs =
      processBatch
        (svc k (List.intercalate sepJoin ((texts.drop (k * bs)).take bs)))
        ((texts.drop (k * bs)).take bs) := by
  unfold translate_batch
  have := translateGo_slice svc D texts h k 0 (by simpa using hk)
  simpa using this

theorem rateDelay_ge (D : ℚ) (bs : Nat) : D ≤ rateDelay D bs :=
  le_max_left _ _

theorem rateDelay_eq (D : ℚ) (bs : Nat) (hD : 0 ≤ D) : rateDelay D bs = D := by
  unfold rateDelay
  rw [max_eq_left]
  have h1 : (1 : ℚ) - (bs : ℚ) / 200 ≤ 1 := by
    have h0 : (0 : ℚ) ≤ (bs : ℚ) / 200 := by positivity
    linarith
  calc D * (1 - (bs : ℚ) / 200) ≤ D * 1 := mul_le_mul_of_nonneg_left h1 hD
  _ = D := mul_one D

theorem numBatches_sub_one {m bs : Nat} (h : 0 < bs) (hm : 0 < m) :
    numBatches m bs - 1 = (m - 1) / bs := by
  unfold numBatches
  have he : m + bs - 1 = (m - 1) + bs := by omega
  rw [he, Nat.add_div_right _ h, Nat.succ_sub_one]

theorem translateGo_delays_aux (svc : Nat → List Char → Except Unit (List Char)) (D : ℚ)
    (texts : List (List Char)) {bs : Nat} (h : 0 < bs)
    (hok : ∀ k s, ∃ b, svc k s = Except.ok b) :
    ∀ (n i : Nat), texts.length - i ≤ n →
      (translateGo svc D texts bs i).2 =
        List.replicate (numBatches (texts.length - i) bs - 1) (rateDelay D bs) := by
  intro n
  induction n with
  | zero =>
    intro i hi
    rw [translateGo_neg (by omega)]
    have h0 : texts.length - i = 0 := by omega
    rw [h0]
    have : numBatches 0 bs = 0 := by
      unfold numBatches
      exact Nat.div_eq_of_lt (by omega)
    rw [this]
    simp
  | succ n ih =>
    intro i hi
    by_cases h2 : i < texts.length
    · rw [translateGo_pos h h2, ih (i + bs) (by omega)]
      obtain ⟨b, hb⟩ := hok (i / bs) (List.intercalate sepJoin ((texts.drop i).take bs))
      rw [hb]
      simp only
      set m := texts.length - i with hm
      have hms : texts.length - (i + bs) = m - bs := by omega
      rw [hms]
      by_cases h3 : i + bs < texts.length
      · rw [if_pos h3]
        have hmb : bs < m := by omega
        have e1 : numBatches m bs - 1 = (m - 1) / bs := numBatches_sub_one h (by omega)
        have e2 : numBatches (m - bs) bs - 1 = (m - bs - 1) / bs := numBatches_sub_one h (by omega)
        have e3 : (m - 1) / bs = (m - bs - 1) / bs + 1 := by
          have : m - 1 = (m - bs - 1) + bs := by omega
          rw [this, Nat.add_div_right _ h]
        rw [e1, e2, e3, List.replicate_succ]
        rfl
      · rw [if_neg h3]
        have hmb : m ≤ bs := by omega
        have e1 : numBatches m bs = 1 := by
          unfold numBatches
          exact Nat.div_eq_of_lt_le (by omega) (by omega)
        have e2 : numBatches (m - bs) bs = 0 := by
          unfold numBatches
          have : m - bs = 0 := by omega
          rw [this]
          exact Nat.div_eq_of_lt (by omega)
        rw [e1, e2]
        simp
    · rw [translateGo_neg (by omega)]
      have h0 : texts.length - i = 0 := by omega
      rw [h0]
      have : numBatches 0 bs = 0 := by
        unfold numBatches
        exact Nat.div_eq_of_lt (by omega)
      rw [this]
      simp

/-- The delays slept by `_translate_batch` when every batch's service call
succeeds: one per inter-batch boundary (none after the last batch), each
equal to `rateDelay D bs`. -/
theorem translate_batch_delays (svc : Nat → List Char → Except Unit (List Char)) (D : ℚ)
    (texts : List (List Char)) (bs : Nat) (h : 0 < bs)
    (hok : ∀ k s, ∃ b, svc k s = Except.ok b) :
    (translate_batch svc D texts bs).2 =
      List.replicate (numBatches texts.length bs - 1) (rateDelay D bs) := by
  unfold translate_batch
  have := translateGo_delays_aux svc D texts h hok texts.length 0 (by omega)
  simpa using this

theorem translateGo_delays_error_aux (svc : Nat → List Char → Except Unit (List Char))
    (D : ℚ) (texts : List (List Char)) {bs : Nat}
    (herr : ∀ k s, svc k s = Except.error ()) :
    ∀ (n i : Nat), texts.length - i ≤ n → (translateGo svc D texts bs i).2 = [] := by
  intro n
  induction n with
  | zero =>
    intro i hi
    by_cases h2 : 0 < bs ∧ i < texts.length
    · omega
    · rw [translateGo_neg h2]
  | succ n ih =>
    intro i hi
    by_cases h2 : 0 < bs ∧ i < texts.length
    · rw [translateGo_pos h2.1 h2.2,
        herr (i / bs) (List.intercalate sepJoin ((texts.drop i).take bs))]
      have := ih (i + bs) (by omega)
      simp only
      rw [List.nil_append]
      exact this
    · rw [translateGo_neg h2]

/-- The `time.sleep` is inside the `try:` block, so with a service whose
every call raises no inter-batch delay is slept at all. -/
theorem translate_batch_delays_error (svc : Nat → List Char → Except Unit (List Char))
    (D : ℚ) (texts : List (List Char)) (bs : Nat)
    (herr : ∀ k s, svc k s = Except.error ()) :
    (translate_batch svc D texts bs).2 = [] := by
  unfold translate_batch
  exact translateGo_delays_error_aux svc D texts herr texts.length 0 (by omega)

/-! ### Filename derivation lemmas -/

theorem upToLastDot_append {xs ys : List Char} (hy : '.' ∉ ys) :
    upToLastDot (xs ++ '.' :: ys) = xs := by
  induction xs with
  | nil =>
    rw [List.nil_append]
    unfold upToLastDot
    rw [if_neg hy, if_pos rfl]
  | cons c xs' ih =>
    rw [List.cons_append]
    unfold upToLastDot
    rw [if_pos (by simp), ih]

theorem pyStem_en_vtt (base : List Char) :
    pyStem (base ++ ".en.vtt".toList) = base ++ ".en".toList := by
  have hsplit : base ++ ".en.vtt".toList = (base ++ ".en".toList) ++ '.' :: "vtt".toList := by
    rw [List.append_assoc]
    rfl
  cases base with
  | nil => decide
  | cons c b =>
    rw [List.cons_append]
    show (if c = '.' then c :: (if '.' ∈ b ++ ".en.vtt".toList then upToLastDot (b ++ ".en.vtt".toList) else b ++ ".en.vtt".toList) else upToLastDot (c :: (b ++ ".en.vtt".toList))) = _
    by_cases hc : c = '.'
    · rw [if_pos hc]
      have hmem : '.' ∈ b ++ ".en.vtt".toList := by
        apply List.mem_append_right
        decide
      rw [if_pos hmem]
      have hb : b ++ ".en.vtt".toList = (b ++ ".en".toList) ++ '.' :: "vtt".toList := by
        rw [List.append_assoc]
        rfl
      rw [hb, upToLastDot_append (by decide), List.cons_append]
    · rw [if_neg hc, ← List.cons_append, hsplit, upToLastDot_append (by decide)]

theorem stripEn_append (base : List Char) :
    stripEn (base ++ ".en".toList) = base := by
  unfold stripEn
  rw [if_pos]
  · rw [List.length_append]
    have h3 : (".en".toList).length = 3 := by decide
    rw [h3, Nat.add_sub_cancel, List.take_left]
  · exact List.isSuffixOf_iff_suffix.mpr ⟨base, rfl⟩

/-! ### Parser invariants -/

theorem matchTimestamp_self {s t r : List Char} (h : matchTimestamp s = some (t, r)) :
    matchTimestamp t = some (t, []) := by
  unfold matchTimestamp at h
  split at h
  · split at h
    · rename_i hcond
      simp only [Option.some.injEq, Prod.mk.injEq] at h
      obtain ⟨ht, hr⟩ := h
      subst ht
      simp [matchTimestamp, hcond]
    · exact absurd h (by simp)
  · exact absurd h (by simp)

theorem matchTimestamp_append {t : List Char} (r : List Char)
    (h : matchTimestamp t = some (t, [])) : matchTimestamp (t ++ r) = some (t, r) := by
  unfold matchTimestamp at h
  split at h
  · rename_i a b c d e f g h2 i j k l tl
    split at h
    · rename_i hcond
      simp only [Option.some.injEq, Prod.mk.injEq] at h
      obtain ⟨ht, hr⟩ := h
      subst hr
      rw [← ht]
      simp [matchTimestamp, hcond]
    · exact absurd h (by simp)
  · exact absurd h (by simp)

/-- The captured timestamp's characters: each is a digit, `':'` or `'.'`. -/
theorem matchTimestamp_chars {t : List Char} (h : matchTimestamp t = some (t, [])) :
    ∀ c ∈ t, c.isDigit = true ∨ c = ':' ∨ c = '.' := by
  unfold matchTimestamp at h
  split at h
  · split at h
    · rename_i hcond
      simp only [Option.some.injEq, Prod.mk.injEq] at h
      obtain ⟨ht, -⟩ := h
      rw [← ht]
      simp only [Bool.and_eq_true, decide_eq_true_eq] at hcond
      intro c hc
      obtain ⟨⟨⟨⟨⟨⟨⟨⟨⟨⟨⟨c1, c2⟩, c3⟩, c4⟩, c5⟩, c6⟩, c7⟩, c8⟩, c9⟩, c10⟩, c11⟩, c12⟩ := hcond
      simp only [List.mem_cons, List.not_mem_nil, or_false] at hc
      rcases hc with h | h | h | h | h | h | h | h | h | h | h | h <;> subst h <;> tauto
    · exact absurd h (by simp)
  · exact absurd h (by simp)

theorem timestamp_head_digit {t : List Char} (h : matchTimestamp t = some (t, [])) :
    ∃ a t', t = a :: t' ∧ a.isDigit = true := by
  unfold matchTimestamp at h
  split at h
  · split at h
    · rename_i hcond
      simp only [Option.some.injEq, Prod.mk.injEq] at h
      obtain ⟨ht, -⟩ := h
      rw [← ht]
      simp only [Bool.and_eq_true, decide_eq_true_eq] at hcond
      exact ⟨_, _, rfl, by tauto⟩
    · exact absurd h (by simp)
  · exact absurd h (by simp)

theorem isDigit_not_space {c : Char} (h : c.isDigit = true) : pyIsSpace c = false := by
  by_contra hsp
  rw [Bool.not_eq_false] at hsp
  unfold pyIsSpace at hsp
  simp only [Bool.or_eq_true, decide_eq_true_eq] at hsp
  rcases hsp with ((((h1 | h1) | h1) | h1) | h1) | h1 <;> subst h1 <;> simp at h

theorem timestamp_no_nl {t : List Char} (h : matchTimestamp t = some (t, [])) :
    '\n' ∉ t := by
  intro hm
  rcases matchTimestamp_chars h '\n' hm with h' | h' | h' <;> simp at h'

theorem matchTimingLine_spec {s t1 t2 : List Char}
    (h : matchTimingLine s = some (t1, t2)) :
    matchTimestamp t1 = some (t1, []) ∧ matchTimestamp t2 = some (t2, []) := by
  unfold matchTimingLine at h
  cases hm1 : matchTimestamp s with
  | none => rw [hm1] at h; exact absurd h (by simp)
  | some p =>
    obtain ⟨u1, r1⟩ := p
    rw [hm1] at h
    simp only [Option.bind_eq_bind, Option.some_bind] at h
    cases hd1 : dropSpaces1 r1 with
    | none => rw [hd1] at h; exact absurd h (by simp)
    | some r2 =>
      rw [hd1] at h
      simp only [Option.some_bind] at h
      by_cases hpre : List.isPrefixOf ['-', '-', '>'] r2
      · rw [if_pos hpre] at h
        cases hd2 : dropSpaces1 (r2.drop 3) with
        | none => rw [hd2] at h; exact absurd h (by simp)
        | some r4 =>
          rw [hd2] at h
          simp only [Option.some_bind] at h
          cases hm2 : matchTimestamp r4 with
          | none => rw [hm2] at h; exact absurd h (by simp)
          | some q =>
            obtain ⟨u2, rr⟩ := q
            rw [hm2] at h
            simp only [Option.some_bind, Option.pure_def, Option.some.injEq,
              Prod.mk.injEq] at h
            obtain ⟨h1, h2⟩ := h
            subst h1; subst h2
            exact ⟨matchTimestamp_self hm1, matchTimestamp_self hm2⟩
      · rw [if_neg hpre] at h
        exact absurd h (by simp)

/-- The invariants of entries produced by the parser: exact timestamp shape
for both times, and a nonempty, strip-fixed, newline-free, arrow-free text. -/
def GoodEntry (e : VTTEntry) : Prop :=
  matchTimestamp e.start_time = some (e.start_time, []) ∧
  matchTimestamp e.end_time = some (e.end_time, []) ∧
  e.text ≠ [] ∧ pyStrip e.text = e.text ∧ '\n' ∉ e.text ∧ hasArrow e.text = false

theorem textLinesOf_mem {lines : List (List Char)} {u : List Char}
    (hu : u ∈ textLinesOf lines) (hnl : ∀ l ∈ lines, '\n' ∉ l) :
    u ≠ [] ∧ pyStrip u = u ∧ hasArrow u = false ∧ '\n' ∉ u := by
  unfold textLinesOf at hu
  rw [List.mem_map] at hu
  obtain ⟨l, hl, hul⟩ := hu
  rw [List.mem_filter] at hl
  obtain ⟨hmem, hcond⟩ := hl
  simp only [Bool.and_eq_true, Bool.not_eq_true'] at hcond
  obtain ⟨⟨harr, hne⟩, hdig⟩ := hcond
  subst hul
  refine ⟨by simpa [List.isEmpty_iff] using hne, pyStrip_idem l, ?_, ?_⟩
  · rw [← Bool.not_eq_true]
    intro harr'
    unfold hasArrow at harr harr'
    simp only [decide_eq_true_eq] at harr'
    have : (['-', '-', '>'] : List Char) <:+: l := harr'.trans (pyStrip_infix_self l)
    simp [this] at harr
  · intro hm
    exact hnl l hmem ((pyStrip_infix_self l).subset hm)

theorem intercalate_space_head {u : List Char} (hu : u ≠ []) (tls : List (List Char)) :
    (List.intercalate [' '] (u :: tls)).head? = u.head? := by
  cases tls with
  | nil => rw [intercalate_single]
  | cons v tls' =>
    rw [intercalate_cons₂]
    cases u with
    | nil => exact absurd rfl hu
    | cons a u' => simp

theorem intercalate_space_ne_nil {u : List Char} (hu : u ≠ []) (tls : List (List Char)) :
    List.intercalate [' '] (u :: tls) ≠ [] := by
  intro he
  have := intercalate_space_head hu tls
  rw [he] at this
  cases u with
  | nil => exact hu rfl
  | cons a u' => simp at this

theorem intercalate_space_getLast :
    ∀ (tls : List (List Char)) (u : List Char), u ≠ [] → (∀ x ∈ tls, x ≠ []) →
      ∃ z, z ∈ u :: tls ∧ (List.intercalate [' '] (u :: tls)).getLast? = z.getLast? := by
  intro tls
  induction tls with
  | nil =>
    intro u hu _
    exact ⟨u, List.mem_singleton_self u, by rw [intercalate_single]⟩
  | cons v tls' ih =>
    intro u hu hx
    obtain ⟨z, hz, hzl⟩ := ih v (hx v (List.mem_cons_self v tls'))
      (fun x hm => hx x (List.mem_cons_of_mem v hm))
    refine ⟨z, List.mem_cons_of_mem u hz, ?_⟩
    have h2 : List.intercalate [' '] (v :: tls') ≠ [] :=
      intercalate_space_ne_nil (hx v (List.mem_cons_self v tls')) tls'
    rw [intercalate_cons₂, List.append_assoc,
      List.getLast?_append_of_ne_nil _ (by simp),
      List.getLast?_append_of_ne_nil _ h2, hzl]

theorem mem_intercalate_space :
    ∀ (tls : List (List Char)) (c : Char), c ∈ List.intercalate [' '] tls →
      c = ' ' ∨ ∃ u ∈ tls, c ∈ u := by
  intro tls
  induction tls with
  | nil =>
    intro c hc
    rw [intercalate_nil] at hc
    simp at hc
  | cons u tls' ih =>
    intro c hc
    cases tls' with
    | nil =>
      rw [intercalate_single] at hc
      exact Or.inr ⟨u, List.mem_singleton_self u, hc⟩
    | cons v tls'' =>
      rw [intercalate_cons₂, List.append_assoc] at hc
      rcases List.mem_append.mp hc with h' | h'
      · exact Or.inr ⟨u, List.mem_cons_self _ _, h'⟩
      · rcases List.mem_append.mp h' with h'' | h''
        · simp only [List.mem_singleton] at h''
          exact Or.inl h''
        · rcases ih c h'' with h3 | ⟨w, hw, hcw⟩
          · exact Or.inl h3
          · exact Or.inr ⟨w, List.mem_cons_of_mem u hw, hcw⟩

theorem parseBlock_good {i : Nat} {block : List Char} {e : VTTEntry}
    (h : parseBlock i block = some e) : GoodEntry e ∧ e.index = i := by
  unfold parseBlock at h
  dsimp only at h
  split at h
  · exact absurd h (by simp)
  · rcases ht : timingLineOf (splitLines (pyStrip block)) with _ | timing
    · rw [ht] at h
      exact absurd h (by simp)
    · rw [ht] at h
      simp only at h
      split at h
      · exact absurd h (by simp)
      · rename_i htls
        rcases hmt : matchTimingLine timing with _ | ⟨t1, t2⟩
        · rw [hmt] at h
          exact absurd h (by simp)
        · rw [hmt] at h
          simp only [Option.some.injEq] at h
          subst h
          obtain ⟨hts1, hts2⟩ := matchTimingLine_spec hmt
          have hnl : ∀ l ∈ splitLines (pyStrip block), '\n' ∉ l :=
            fun l hl => mem_splitLines_no_nl hl
          have htfacts : ∀ u ∈ textLinesOf (splitLines (pyStrip block)),
              u ≠ [] ∧ pyStrip u = u ∧ hasArrow u = false ∧ '\n' ∉ u :=
            fun u hu => textLinesOf_mem hu hnl
          rcases he : textLinesOf (splitLines (pyStrip block)) with _ | ⟨u, tls'⟩
          · rw [he] at htls
            simp at htls
          · rw [he] at htfacts
            have hufacts := htfacts u (List.mem_cons_self u tls')
            refine ⟨⟨hts1, hts2, ?_, ?_, ?_, ?_⟩, rfl⟩
            · exact intercalate_space_ne_nil hufacts.1 tls'
            · show pyStrip (List.intercalate [' '] (u :: tls')) = _
              apply pyStrip_eq_self
              · intro c hc
                rw [intercalate_space_head hufacts.1 tls'] at hc
                have := hufacts.2.1
                rw [← this] at hc
                exact pyStrip_head hc
              · intro c hc
                obtain ⟨z, hz, hzl⟩ := intercalate_space_getLast tls' u hufacts.1
                  (fun x hm => (htfacts x (List.mem_cons_of_mem u hm)).1)
                rw [hzl] at hc
                have hzfacts := htfacts z hz
                rw [← hzfacts.2.1] at hc
                exact pyStrip_getLast hc
            · show '\n' ∉ List.intercalate [' '] (u :: tls')
              intro hm
              rcases mem_intercalate_space _ '\n' hm with h' | ⟨w, hw, hcw⟩
              · exact absurd h' (by decide)
              · exact (htfacts w hw).2.2.2 hcw
            · show hasArrow (List.intercalate [' '] (u :: tls')) = false
              rw [← Bool.not_eq_true]
              unfold hasArrow
              simp only [decide_eq_true_eq]
              intro hinf
              obtain ⟨w, hw, hwin⟩ := infix_intercalate_space (by decide) (by decide) hinf
              have := (htfacts w hw).2.2.1
              unfold hasArrow at this
              simp [hwin] at this

theorem parse_vtt_good {content : List Char} {e : VTTEntry}
    (he : e ∈ parse_vtt_file content) : GoodEntry e := by
  unfold parse_vtt_file at he
  rw [List.mem_filterMap] at he
  obtain ⟨⟨i, block⟩, -, hp⟩ := he
  exact (parseBlock_good hp).1

/-! ### Writer cursor behaviour -/

theorem buildBody_zip (ts : List (List Char)) :
    ∀ (entries : List VTTEntry) (ti : Nat),
      (∀ e ∈ entries, (pyStrip e.text).isEmpty = false) →
      ti + entries.length ≤ ts.length →
      buildBody ts entries ti =
        (List.zipWith (fun e t => [formatTiming e, t, []]) entries (ts.drop ti)).flatten := by
  intro entries
  induction entries with
  | nil => intro ti _ _; simp [buildBody]
  | cons e es ih =>
    intro ti hgood hlen
    have hti : ti < ts.length := by
      simp only [List.length_cons] at hlen
      omega
    rw [buildBody, if_pos ⟨hgood e (List.mem_cons_self e es), hti⟩]
    rw [List.drop_eq_getElem_cons hti, List.zipWith_cons_cons, List.flatten_cons]
    rw [ih (ti + 1) (fun x hx => hgood x (List.mem_cons_of_mem e hx))
      (by simp only [List.length_cons] at hlen; omega)]
    rw [List.getD_eq_getElem ts [] hti]
    rfl

/-! ### Block-splitting of well-formed written content -/

theorem splitBlocksAux_nil (acc : List Char) : splitBlocksAux acc [] = [acc.reverse] := by
  rw [splitBlocksAux.eq_def]

theorem splitBlocksAux_cons_ne {c : Char} (hc : c ≠ '\n') (acc t : List Char) :
    splitBlocksAux acc (c :: t) = splitBlocksAux (c :: acc) t := by
  rw [splitBlocksAux.eq_def]
  simp only [if_neg hc]

theorem splitBlocksAux_single_nl (acc : List Char) :
    splitBlocksAux acc ['\n'] = [('\n' :: acc).reverse] := by
  rw [splitBlocksAux.eq_def]
  simp

theorem splitBlocksAux_nl_ne {c2 : Char} (hc2 : c2 ≠ '\n') (acc t : List Char) :
    splitBlocksAux acc ('\n' :: c2 :: t) = splitBlocksAux ('\n' :: acc) (c2 :: t) := by
  rw [splitBlocksAux.eq_def]
  simp [hc2]

theorem splitBlocksAux_nl_nl (acc t : List Char) :
    splitBlocksAux acc ('\n' :: '\n' :: t) =
      acc.reverse :: splitBlocksAux [] (t.dropWhile (fun x => x = '\n')) := by
  rw [splitBlocksAux.eq_def]
  simp

theorem nlnl_not_infix {A B : List Char} (hA : '\n' ∉ A) (hB : '\n' ∉ B) :
    ¬ (['\n', '\n'] <:+: A ++ '\n' :: B) := by
  intro h
  have hcount := h.sublist.count_le '\n'
  simp [List.count_append, List.count_cons, List.count_eq_zero.mpr hA,
    List.count_eq_zero.mpr hB] at hcount

theorem splitBlocksAux_no_sep : ∀ (b acc : List Char),
    ¬ (['\n', '\n'] <:+: b) → b.getLast? ≠ some '\n' →
    splitBlocksAux acc b = [acc.reverse ++ b] := by
  intro b
  induction b with
  | nil =>
    intro acc _ _
    rw [splitBlocksAux_nil, List.append_nil]
  | cons c t ih =>
    intro acc hinf hlast
    by_cases hc : c = '\n'
    · subst hc
      cases t with
      | nil => simp at hlast
      | cons c2 t2 =>
        have hc2 : c2 ≠ '\n' := by
          intro he
          subst he
          exact hinf ⟨[], t2, rfl⟩
        rw [splitBlocksAux_nl_ne hc2]
        rw [ih ('\n' :: acc)
          (fun hx => hinf (hx.trans (List.infix_cons List.infix_rfl)))
          (by rwa [List.getLast?_cons_cons] at hlast)]
        simp
    · rw [splitBlocksAux_cons_ne hc]
      cases t with
      | nil =>
        rw [splitBlocksAux_nil]
        simp
      | cons c2 t2 =>
        rw [ih (c :: acc)
          (fun hx => hinf (hx.trans (List.infix_cons List.infix_rfl)))
          (by rwa [List.getLast?_cons_cons] at hlast)]
        simp

theorem splitBlocksAux_sep : ∀ (b acc rest : List Char),
    ¬ (['\n', '\n'] <:+: b) → b.getLast? ≠ some '\n' →
    (∀ c, rest.head? = some c → c ≠ '\n') →
    splitBlocksAux acc (b ++ '\n' :: '\n' :: rest) =
      (acc.reverse ++ b) :: splitBlocksAux [] rest := by
  intro b
  induction b with
  | nil =>
    intro acc rest _ _ hrest
    have hdw : rest.dropWhile (fun x => x = '\n') = rest :=
      dropWhile_eq_self_of_head _ _ (fun c hc => by simp [hrest c hc])
    rw [List.nil_append, splitBlocksAux_nl_nl, List.append_nil, hdw]
  | cons c t ih =>
    intro acc rest hinf hlast hrest
    by_cases hc : c = '\n'
    · subst hc
      cases t with
      | nil => simp at hlast
      | cons c2 t2 =>
        have hc2 : c2 ≠ '\n' := by
          intro he
          subst he
          exact hinf ⟨[], t2, rfl⟩
        rw [List.cons_append, List.cons_append, splitBlocksAux_nl_ne hc2,
          ← List.cons_append,
          ih ('\n' :: acc) rest
            (fun hx => hinf (hx.trans (List.infix_cons List.infix_rfl)))
            (by rwa [List.getLast?_cons_cons] at hlast) hrest]
        simp
    · rw [List.cons_append, splitBlocksAux_cons_ne hc]
      cases t with
      | nil =>
        have hdw : rest.dropWhile (fun x => x = '\n') = rest :=
          dropWhile_eq_self_of_head _ _ (fun x hx => by simp [hrest x hx])
        rw [List.nil_append, splitBlocksAux_nl_nl, hdw]
        simp
      | cons c2 t2 =>
        rw [ih (c :: acc) rest
          (fun hx => hinf (hx.trans (List.infix_cons List.infix_rfl)))
          (by rwa [List.getLast?_cons_cons] at hlast) hrest]
        simp

/-- A block is well formed for re-splitting: nonempty, no two adjacent
newlines, and no newline at either end. -/
def GoodBlock (b : List Char) : Prop :=
  b ≠ [] ∧ ¬ (['\n', '\n'] <:+: b) ∧
  (∀ c, b.head? = some c → c ≠ '\n') ∧ b.getLast? ≠ some '\n'

theorem splitBlocks_intercalate : ∀ (bs : List (List Char)) (b : List Char),
    GoodBlock b → (∀ x ∈ bs, GoodBlock x) →
    splitBlocks (List.intercalate ['\n', '\n'] (b :: bs)) = b :: bs := by
  intro bs
  induction bs with
  | nil =>
    intro b hb _
    rw [intercalate_single]
    unfold splitBlocks
    rw [splitBlocksAux_no_sep b [] hb.2.1 hb.2.2.2]
    simp
  | cons b2 bs' ih =>
    intro b hb hbs
    rw [intercalate_cons₂]
    unfold splitBlocks
    have hb2 := hbs b2 (List.mem_cons_self b2 bs')
    have hrest : ∀ c, (List.intercalate ['\n', '\n'] (b2 :: bs')).head? = some c →
        c ≠ '\n' := by
      intro c hc
      cases hb2e : b2 with
      | nil => exact absurd hb2e hb2.1
      | cons x xs =>
        subst hb2e
        have hh : (List.intercalate ['\n', '\n'] ((x :: xs) :: bs')).head? = some x := by
          cases bs' with
          | nil => rw [intercalate_single]; rfl
          | cons z zs => rw [intercalate_cons₂]; simp
        rw [hh] at hc
        have hxc : x = c := by injection hc
        exact hxc ▸ hb2.2.2.1 x rfl
    rw [show b ++ ['\n', '\n'] ++ List.intercalate ['\n', '\n'] (b2 :: bs') =
      b ++ '\n' :: '\n' :: List.intercalate ['\n', '\n'] (b2 :: bs') by simp]
    rw [splitBlocksAux_sep b [] _ hb.2.1 hb.2.2.2 hrest]
    have := ih b2 hb2 (fun x hx => hbs x (List.mem_cons_of_mem b2 hx))
    unfold splitBlocks at this
    rw [this]
    simp

/-! ### Normal form of the written content -/

theorem intercalate_nl_triples (p : List Char × List Char)
    (bl : List (List Char × List Char)) :
    List.intercalate ['\n'] ([] :: ((p :: bl).map (fun q => [q.1, q.2, []])).flatten) =
      '\n' :: (p.1 ++ '\n' :: (p.2 ++ '\n' ::
        List.intercalate ['\n'] ([] :: (bl.map (fun q => [q.1, q.2, []])).flatten))) := by
  rw [List.map_cons, List.flatten_cons]
  rw [show ([p.1, p.2, []] : List (List Char)) ++ (bl.map (fun q => [q.1, q.2, []])).flatten =
    p.1 :: p.2 :: [] :: (bl.map (fun q => [q.1, q.2, []])).flatten from rfl]
  rw [intercalate_cons₂, intercalate_cons₂, intercalate_cons₂]
  simp

theorem blocks_content : ∀ (bl : List (List Char × List Char)) (b : List Char),
    b ++ '\n' :: List.intercalate ['\n'] ([] :: (bl.map (fun q => [q.1, q.2, []])).flatten) =
      List.intercalate ['\n', '\n'] (b :: bl.map (fun p => p.1 ++ '\n' :: p.2)) ++ ['\n'] := by
  intro bl
  induction bl with
  | nil =>
    intro b
    simp [intercalate_single]
  | cons p bl' ih =>
    intro b
    rw [intercalate_nl_triples, List.map_cons, intercalate_cons₂]
    have := ih (p.1 ++ '\n' :: p.2)
    rw [List.append_assoc, List.append_assoc]
    rw [show (['\n', '\n'] : List Char) ++
      (List.intercalate ['\n', '\n'] ((p.1 ++ '\n' :: p.2) :: bl'.map (fun q => q.1 ++ '\n' :: q.2)) ++ ['\n']) =
      '\n' :: '\n' :: (List.intercalate ['\n', '\n'] ((p.1 ++ '\n' :: p.2) :: bl'.map (fun q => q.1 ++ '\n' :: q.2)) ++ ['\n']) from rfl]
    rw [← this]
    simp

/-- The content written by `_create_translated_vtt` in block normal form:
the header and the entry blocks joined by blank lines, plus a final
newline. -/
theorem vttContent_norm (entries : List VTTEntry) (ts : List (List Char))
    (h1 : ∀ e ∈ entries, (pyStrip e.text).isEmpty = false)
    (h2 : entries.length ≤ ts.length) :
    vttContent entries ts =
      List.intercalate ['\n', '\n'] (webvttHeader ::
        List.zipWith (fun e t => formatTiming e ++ '\n' :: t) entries ts) ++ ['\n'] := by
  unfold vttContent vttContentLines
  rw [buildBody_zip ts entries 0 h1 (by omega), List.drop_zero]
  have hzip1 : List.zipWith (fun e t => ([formatTiming e, t, []] : List (List Char)))
      entries ts =
      (List.zipWith (fun (e : VTTEntry) (t : List Char) => (formatTiming e, t)) entries ts).map
        (fun q => [q.1, q.2, []]) := by
    rw [List.map_zipWith]
  have hzip2 : List.zipWith (fun e t => formatTiming e ++ '\n' :: t) entries ts =
      (List.zipWith (fun (e : VTTEntry) (t : List Char) => (formatTiming e, t)) entries ts).map
        (fun q => q.1 ++ '\n' :: q.2) := by
    rw [List.map_zipWith]
  rw [hzip1, hzip2]
  rw [show ([webvttHeader, []] : List (List Char)) ++
    ((List.zipWith (fun (e : VTTEntry) (t : List Char) => (formatTiming e, t)) entries ts).map
      (fun q => [q.1, q.2, []])).flatten =
    webvttHeader :: [] ::
    ((List.zipWith (fun (e : VTTEntry) (t : List Char) => (formatTiming e, t)) entries ts).map
      (fun q => [q.1, q.2, []])).flatten from rfl]
  rw [intercalate_cons₂]
  rw [show (webvttHeader ++ ['\n']) ++
    List.intercalate ['\n'] ([] ::
      ((List.zipWith (fun (e : VTTEntry) (t : List Char) => (formatTiming e, t)) entries ts).map
        (fun q => [q.1, q.2, []])).flatten) =
    webvttHeader ++ '\n' ::
    List.intercalate ['\n'] ([] ::
      ((List.zipWith (fun (e : VTTEntry) (t : List Char) => (formatTiming e, t)) entries ts).map
        (fun q => [q.1, q.2, []])).flatten) by simp]
  rw [blocks_content]

/-! ### Re-parsing the written content -/

theorem intercalate_head_ne {sep u : List Char} (hu : u ≠ []) (tls : List (List Char)) :
    (List.intercalate sep (u :: tls)).head? = u.head? := by
  cases tls with
  | nil => rw [intercalate_single]
  | cons v tls' =>
    rw [intercalate_cons₂]
    cases u with
    | nil => exact absurd rfl hu
    | cons a u' => simp

theorem intercalate_ne_nil {sep u : List Char} (hu : u ≠ []) (tls : List (List Char)) :
    List.intercalate sep (u :: tls) ≠ [] := by
  intro he
  have := @intercalate_head_ne sep u hu tls
  rw [he] at this
  cases u with
  | nil => exact hu rfl
  | cons a u' => simp at this

theorem intercalate_getLast_mem {sep : List Char} :
    ∀ (tls : List (List Char)) (u : List Char), u ≠ [] → (∀ x ∈ tls, x ≠ []) →
      ∃ z, z ∈ u :: tls ∧ (List.intercalate sep (u :: tls)).getLast? = z.getLast? := by
  intro tls
  induction tls with
  | nil =>
    intro u hu _
    exact ⟨u, List.mem_singleton_self u, by rw [intercalate_single]⟩
  | cons v tls' ih =>
    intro u hu hx
    obtain ⟨z, hz, hzl⟩ := ih v (hx v (List.mem_cons_self v tls'))
      (fun x hm => hx x (List.mem_cons_of_mem v hm))
    refine ⟨z, List.mem_cons_of_mem u hz, ?_⟩
    have h2 : List.intercalate sep (v :: tls') ≠ [] :=
      intercalate_ne_nil (hx v (List.mem_cons_self v tls')) tls'
    rw [intercalate_cons₂, List.append_assoc,
      List.getLast?_append_of_ne_nil _ (by simp [h2]),
      List.getLast?_append_of_ne_nil _ h2, hzl]

theorem pyStrip_append_nl {X : List Char}
    (hh : ∀ c, X.head? = some c → pyIsSpace c = false)
    (hl : ∀ c, X.getLast? = some c → pyIsSpace c = false) :
    pyStrip (X ++ ['\n']) = X := by
  cases X with
  | nil => decide
  | cons a X' =>
    have hback : List.dropWhile pyIsSpace (a :: X').reverse = (a :: X').reverse := by
      apply dropWhile_eq_self_of_head
      intro c hc
      rw [List.head?_reverse] at hc
      exact hl c hc
    unfold pyStrip
    rw [List.cons_append, List.dropWhile_cons, if_neg (by simp [hh a rfl]),
      ← List.cons_append, List.reverse_append,
      show (['\n'] : List Char).reverse = ['\n'] from rfl,
      List.singleton_append, List.dropWhile_cons, if_pos (by decide), hback,
      List.reverse_reverse]

/-- The formatted timing line: its head is the start timestamp's first
(digit) character, it contains no newline, and it contains `-->`. -/
theorem formatTiming_facts (e : VTTEntry)
    (h1 : matchTimestamp e.start_time = some (e.start_time, []))
    (h2 : matchTimestamp e.end_time = some (e.end_time, [])) :
    (∃ a, (formatTiming e).head? = some a ∧ a.isDigit = true) ∧
    '\n' ∉ formatTiming e ∧ hasArrow (formatTiming e) = true := by
  obtain ⟨a, t', hst, ha⟩ := timestamp_head_digit h1
  refine ⟨⟨a, ?_, ha⟩, ?_, ?_⟩
  · unfold formatTiming
    rw [hst]
    simp
  · unfold formatTiming
    intro hm
    rcases List.mem_append.mp hm with hm' | hm'
    · rcases List.mem_append.mp hm' with hm'' | hm''
      · exact timestamp_no_nl h1 hm''
      · exact absurd hm'' (by decide)
    · exact timestamp_no_nl h2 hm'
  · unfold hasArrow formatTiming
    simp only [decide_eq_true_eq]
    exact ⟨e.start_time ++ [' '], ' ' :: e.end_time, by simp⟩

theorem startsWebvtt_of_digit {l : List Char} {a : Char} (hh : l.head? = some a)
    (ha : a.isDigit = true) : startsWebvtt l = false := by
  unfold startsWebvtt
  rw [← Bool.not_eq_true]
  intro hp
  rw [List.isPrefixOf_iff_prefix] at hp
  rcases hp with ⟨t, ht⟩
  rw [← ht] at hh
  have : a = 'W' := by
    have : ("WEBVTT".toList ++ t).head? = some 'W' := rfl
    rw [this] at hh
    injection hh with hh
    exact hh.symm
  subst this
  simp at ha

/-- Re-parsing one written entry block recovers the entry's timing and
text, re-indexed. -/
theorem parseBlock_roundtrip (k : Nat) (e : VTTEntry) (hg : GoodEntry e)
    (hd : pyIsDigit e.text = false) :
    parseBlock k (formatTiming e ++ '\n' :: e.text) =
      some ⟨k, e.start_time, e.end_time, e.text, formatTiming e ++ '\n' :: e.text⟩ := by
  obtain ⟨hts1, hts2, htne, htstrip, htnl, htarr⟩ := hg
  obtain ⟨⟨a, hhead, ha⟩, hftnl, hftarr⟩ := formatTiming_facts e hts1 hts2
  have hstrip : pyStrip (formatTiming e ++ '\n' :: e.text) =
      formatTiming e ++ '\n' :: e.text := by
    apply pyStrip_eq_self
    · intro c hc
      cases hft : formatTiming e with
      | nil => rw [hft] at hhead; simp at hhead
      | cons b bs =>
        rw [hft] at hhead hc
        rw [List.cons_append] at hc
        simp only [List.head?_cons, Option.some.injEq] at hhead hc
        subst hhead; subst hc
        exact isDigit_not_space ha
    · intro c hc
      rw [List.getLast?_append_of_ne_nil _ (by simp)] at hc
      cases hte : e.text with
      | nil => exact absurd hte htne
      | cons b bs =>
        rw [hte, List.getLast?_cons_cons] at hc
        apply pyStrip_getLast (s := e.text)
        rw [htstrip, hte]
        exact hc
  have hlines : splitLines (pyStrip (formatTiming e ++ '\n' :: e.text)) =
      [formatTiming e, e.text] := by
    rw [hstrip, splitLines_append hftnl, splitLines_no_nl htnl]
  unfold parseBlock
  rw [hlines]
  dsimp only
  rw [if_neg (by
    simp only [List.isEmpty_cons, Bool.or_eq_true, Bool.not_eq_true']
    intro hcond
    rcases hcond with (hcond | hcond) | hcond
    · simp at hcond
    · simp only [List.headD_cons] at hcond
      rw [startsWebvtt_of_digit hhead ha] at hcond
      simp at hcond
    · have : (pyStrip e.text).isEmpty = false := by
        rw [htstrip]
        simpa [List.isEmpty_iff] using htne
      simp [List.any_cons, this] at hcond)]
  have htiming : timingLineOf [formatTiming e, e.text] = some (formatTiming e) := by
    unfold timingLineOf
    rw [List.filter_cons, if_pos (by simp [hftarr]), List.filter_cons,
      if_neg (by simp [htarr]), List.filter_nil]
    rfl
  rw [htiming]
  dsimp only
  have htls : textLinesOf [formatTiming e, e.text] = [e.text] := by
    unfold textLinesOf
    rw [List.filter_cons, if_neg (by simp [hftarr]), List.filter_cons,
      if_pos (by
        simp only [Bool.and_eq_true, Bool.not_eq_true']
        refine ⟨⟨by simp [htarr], ?_⟩, hd⟩
        rw [htstrip]
        simpa [List.isEmpty_iff] using htne),
      List.filter_nil, List.map_cons, List.map_nil, htstrip]
  rw [htls]
  rw [if_neg (by simp)]
  have hmtl : matchTimingLine (formatTiming e) = some (e.start_time, e.end_time) := by
    unfold matchTimingLine formatTiming
    have hft : e.start_time ++ " --> ".toList ++ e.end_time =
        e.start_time ++ (' ' :: '-' :: '-' :: '>' :: ' ' :: e.end_time) := by
      rw [List.append_assoc]
      rfl
    rw [hft, matchTimestamp_append _ hts1]
    simp only [Option.bind_eq_bind, Option.some_bind]
    have hds1 : dropSpaces1 (' ' :: '-' :: '-' :: '>' :: ' ' :: e.end_time) =
        some ('-' :: '-' :: '>' :: ' ' :: e.end_time) := by
      show some (List.dropWhile pyIsSpace ('-' :: '-' :: '>' :: ' ' :: e.end_time)) = _
      rw [List.dropWhile_cons, if_neg (by decide)]
    rw [hds1]
    simp only [Option.some_bind]
    rw [if_pos (by
      rw [List.isPrefixOf_iff_prefix]
      exact ⟨' ' :: e.end_time, rfl⟩)]
    have hds2 : dropSpaces1 (('-' :: '-' :: '>' :: ' ' :: e.end_time).drop 3) =
        some e.end_time := by
      show some (List.dropWhile pyIsSpace e.end_time) = _
      congr 1
      apply dropWhile_eq_self_of_head
      intro c hc
      obtain ⟨b, t', het, hb⟩ := timestamp_head_digit hts2
      rw [het] at hc
      simp only [List.head?_cons, Option.some.injEq] at hc
      subst hc
      exact isDigit_not_space hb
    rw [hds2]
    simp only [Option.some_bind]
    rw [hts2]
    rfl
  rw [hmtl, intercalate_single]

/-- The entries recovered when re-parsing the written file: same timing and
text, block indices starting at `n` (block 0 is the header), original line
the written block. -/
def reIndexed : Nat → List VTTEntry → List VTTEntry
  | _, [] => []
  | n, e :: es =>
    ⟨n, e.start_time, e.end_time, e.text, formatTiming e ++ '\n' :: e.text⟩ ::
      reIndexed (n + 1) es

theorem reIndexed_map_proj : ∀ (n : Nat) (es : List VTTEntry),
    (reIndexed n es).map (fun e => (e.start_time, e.end_time, e.text)) =
      es.map (fun e => (e.start_time, e.end_time, e.text)) := by
  intro n es
  induction es generalizing n with
  | nil => rfl
  | cons e es ih => simp [reIndexed, ih]

theorem reIndexed_map_text : ∀ (n : Nat) (es : List VTTEntry),
    (reIndexed n es).map (·.text) = es.map (·.text) := by
  intro n es
  induction es generalizing n with
  | nil => rfl
  | cons e es ih => simp [reIndexed, ih]

theorem reIndexed_mem : ∀ {n : Nat} {es : List VTTEntry} {e2 : VTTEntry},
    e2 ∈ reIndexed n es →
    ∃ e ∈ es, e2.start_time = e.start_time ∧ e2.end_time = e.end_time ∧
      e2.text = e.text := by
  intro n es
  induction es generalizing n with
  | nil => intro e2 h; simp [reIndexed] at h
  | cons e es ih =>
    intro e2 h
    rw [reIndexed] at h
    rcases List.mem_cons.mp h with h' | h'
    · subst h'
      exact ⟨e, List.mem_cons_self e es, rfl, rfl, rfl⟩
    · obtain ⟨x, hx, hp⟩ := ih h'
      exact ⟨x, List.mem_cons_of_mem e hx, hp⟩

theorem filterMap_parseBlock : ∀ (entries : List VTTEntry) (n : Nat),
    (∀ e ∈ entries, GoodEntry e ∧ pyIsDigit e.text = false) →
    (List.enumFrom n (entries.map (fun e => formatTiming e ++ '\n' :: e.text))).filterMap
        (fun p => parseBlock p.1 p.2) = reIndexed n entries := by
  intro entries
  induction entries with
  | nil => intro n _; rfl
  | cons e es ih =>
    intro n hg
    rw [List.map_cons, List.enumFrom_cons, List.filterMap_cons]
    have he := hg e (List.mem_cons_self e es)
    rw [show parseBlock (n, formatTiming e ++ '\n' :: e.text).1
        (n, formatTiming e ++ '\n' :: e.text).2 =
      parseBlock n (formatTiming e ++ '\n' :: e.text) from rfl]
    rw [parseBlock_roundtrip n e he.1 he.2]
    rw [ih (n + 1) (fun x hx => hg x (List.mem_cons_of_mem e hx))]
    rfl

theorem parse_vtt_file_eq (s : List Char) :
    parse_vtt_file s =
      ((splitBlocks (pyStrip s)).enum).filterMap (fun p => parseBlock p.1 p.2) := rfl

theorem parse_roundtrip (content : List Char)
    (hd : ∀ e ∈ parse_vtt_file content, pyIsDigit e.text = false) :
    parse_vtt_file (roundtrip content) = reIndexed 1 (parse_vtt_file content) := by
  have hgood : ∀ e ∈ parse_vtt_file content, GoodEntry e :=
    fun e he => parse_vtt_good he
  have hfilter : ((parse_vtt_file content).filter
      fun e => (pyStrip e.text).isEmpty = false) = parse_vtt_file content := by
    apply List.filter_eq_self.mpr
    intro e he
    have hg := hgood e he
    simp [hg.2.2.2.1, List.isEmpty_iff, hg.2.2.1]
  have hblocks : List.zipWith (fun e t => formatTiming e ++ '\n' :: t)
      (parse_vtt_file content) ((parse_vtt_file content).map (·.text)) =
      (parse_vtt_file content).map (fun e => formatTiming e ++ '\n' :: e.text) := by
    rw [List.zipWith_map_right, List.zipWith_same]
  have hcontent : roundtrip content =
      List.intercalate ['\n', '\n'] (webvttHeader ::
        (parse_vtt_file content).map (fun e => formatTiming e ++ '\n' :: e.text)) ++
        ['\n'] := by
    unfold roundtrip
    dsimp only
    rw [hfilter, vttContent_norm _ _ (fun e he => by
        have hg := hgood e he
        simp [hg.2.2.2.1, List.isEmpty_iff, hg.2.2.1]) (by simp), hblocks]
  have hblock_facts : ∀ x ∈ (parse_vtt_file content).map
      (fun e => formatTiming e ++ '\n' :: e.text),
      (∃ e, GoodEntry e ∧ x = formatTiming e ++ '\n' :: e.text) := by
    intro x hx
    rw [List.mem_map] at hx
    obtain ⟨e, he, hxe⟩ := hx
    exact ⟨e, hgood e he, hxe.symm⟩
  have hentry_block : ∀ (e : VTTEntry), GoodEntry e →
      GoodBlock (formatTiming e ++ '\n' :: e.text) ∧
      (∀ c, (formatTiming e ++ '\n' :: e.text).getLast? = some c →
        pyIsSpace c = false) := by
    intro e hg
    obtain ⟨hts1, hts2, htne, htstrip, htnl, htarr⟩ := hg
    obtain ⟨⟨a, hhead, ha⟩, hftnl, hftarr⟩ := formatTiming_facts e hts1 hts2
    have hlastp : ∀ c, (formatTiming e ++ '\n' :: e.text).getLast? = some c →
        pyIsSpace c = false := by
      intro c hc
      rw [List.getLast?_append_of_ne_nil _ (by simp)] at hc
      cases hte : e.text with
      | nil => exact absurd hte htne
      | cons b bs =>
        rw [hte, List.getLast?_cons_cons] at hc
        apply pyStrip_getLast (s := e.text)
        rw [htstrip, hte]
        exact hc
    refine ⟨⟨by simp, ?_, ?_, ?_⟩, hlastp⟩
    · exact nlnl_not_infix hftnl htnl
    · intro c hc hcnl
      cases hft : formatTiming e with
      | nil => rw [hft] at hhead; simp at hhead
      | cons b bs =>
        rw [hft] at hhead hc
        rw [List.cons_append] at hc
        simp only [List.head?_cons, Option.some.injEq] at hhead hc
        subst hhead; subst hcnl
        rw [hc] at ha
        exact absurd ha (by decide)
    · intro hc
      have := hlastp '\n' hc
      exact absurd this (by decide)
  have hstripX : pyStrip (List.intercalate ['\n', '\n'] (webvttHeader ::
      (parse_vtt_file content).map (fun e => formatTiming e ++ '\n' :: e.text)) ++
      ['\n']) =
      List.intercalate ['\n', '\n'] (webvttHeader ::
        (parse_vtt_file content).map (fun e => formatTiming e ++ '\n' :: e.text)) := by
    apply pyStrip_append_nl
    · intro c hc
      rw [intercalate_head_ne (by decide)] at hc
      have : c = 'W' := by
        rw [show webvttHeader.head? = some 'W' from rfl] at hc
        injection hc with hc
        exact hc.symm
      subst this
      decide
    · intro c hc
      obtain ⟨z, hz, hzl⟩ := @intercalate_getLast_mem ['\n', '\n'] _
        webvttHeader (by decide) (by
          intro x hx
          obtain ⟨e, hge, hxe⟩ := hblock_facts x hx
          subst hxe
          simp)
      rw [hzl] at hc
      rcases List.mem_cons.mp hz with hz' | hz'
      · subst hz'
        rw [show webvttHeader.getLast? = some 'T' from rfl] at hc
        injection hc with hc
        subst hc
        decide
      · obtain ⟨e, hge, hxe⟩ := hblock_facts z hz'
        subst hxe
        exact (hentry_block e hge).2 c hc
  rw [hcontent, parse_vtt_file_eq, hstripX]
  rw [splitBlocks_intercalate _ webvttHeader (by
      refine ⟨by decide, ?_, by decide, by decide⟩
      intro hx
      have := hx.sublist.count_le '\n'
      have h0 : List.count '\n' webvttHeader = 0 := by decide
      rw [h0] at this
      simp [List.count_cons] at this)
    (by
      intro x hx
      obtain ⟨e, hge, hxe⟩ := hblock_facts x hx
      subst hxe
      exact (hentry_block e hge).1)]
  rw [List.enum_cons, List.filterMap_cons]
  rw [show parseBlock (0, webvttHeader).1 (0, webvttHeader).2 =
    parseBlock 0 webvttHeader from rfl]
  rw [show parseBlock 0 webvttHeader = none from rfl]
  exact filterMap_parseBlock (parse_vtt_file content) 1
    (fun e he => ⟨hgood e he, hd e he⟩)

theorem buildBody_proj : ∀ (es1 es2 : List VTTEntry) (ts : List (List Char)) (ti : Nat),
    es1.map (fun e => (e.start_time, e.end_time, e.text)) =
      es2.map (fun e => (e.start_time, e.end_time, e.text)) →
    buildBody ts es1 ti = buildBody ts es2 ti := by
  intro es1
  induction es1 with
  | nil =>
    intro es2 ts ti h
    cases es2 with
    | nil => rfl
    | cons e2 es2' => simp at h
  | cons e es ih =>
    intro es2 ts ti h
    cases es2 with
    | nil => simp at h
    | cons e2 es2' =>
      simp only [List.map_cons, List.cons.injEq, Prod.mk.injEq] at h
      obtain ⟨⟨h1, h2, h3⟩, h4⟩ := h
      rw [buildBody, buildBody]
      have hft : formatTiming e = formatTiming e2 := by
        unfold formatTiming
        rw [h1, h2]
      rw [hft, h3, ih es2' ts (ti + 1) h4, ih es2' ts ti h4]

theorem vttContent_proj (es1 es2 : List VTTEntry) (ts : List (List Char))
    (h : es1.map (fun e => (e.start_time, e.end_time, e.text)) =
      es2.map (fun e => (e.start_time, e.end_time, e.text))) :
    vttContent es1 ts = vttContent es2 ts := by
  unfold vttContent vttContentLines
  rw [buildBody_proj es1 es2 ts 0 h]

/-! ### Claim theorems -/

/-- C1: for every input text list and every batch size `N > 0`, the batch
translator returns a list of length exactly the input length, whatever the
service returns per batch; on a successful response the recovered segments
are padded at the tail with the batch's own source texts and truncated, so
each batch contributes exactly its input count. -/
theorem C1_batch_translator_length (svc : Nat → List Char → Except Unit (List Char))
    (D : ℚ) (texts : List (List Char)) (bs : Nat) (h : 0 < bs) :
    ((translate_batch svc D texts bs).1).length = texts.length ∧
    ∀ blob batch, processBatch (Except.ok blob) batch =
      (((splitSep (pyStrip blob)).map pyStrip) ++
        batch.drop ((splitSep (pyStrip blob)).map pyStrip).length).take batch.length :=
  ⟨translate_batch_length svc D texts bs h, fun blob batch => processBatch_ok blob batch⟩

/-- Witness for C1 at a concrete input: three texts, batch size 2, a
service that always answers with a single segment. -/
theorem C1_witness :
    0 < 2 ∧
    ((translate_batch (fun _ _ => Except.ok "onlyone".toList) (1/2)
      ["t1".toList, "t2".toList, "t3".toList] 2).1).length = 3 := by
  refine ⟨by decide, ?_⟩
  rw [(C1_batch_translator_length (fun _ _ => Except.ok "onlyone".toList) (1/2)
    ["t1".toList, "t2".toList, "t3".toList] 2 (by decide)).1]
  decide

/-- C2: a batch whose service call raises is replaced by that batch's own
source texts; the translator never raises, every other batch is still
processed, and output slices line up with input slices batch by batch. -/
theorem C2_batch_error_fallback (svc : Nat → List Char → Except Unit (List Char))
    (D : ℚ) (texts : List (List Char)) (bs : Nat) (h : 0 < bs) (k : Nat)
    (hk : k * bs < texts.length)
    (herr : svc k (List.intercalate sepJoin ((texts.drop (k * bs)).take bs)) =
      Except.error ()) :
    (((translate_batch svc D texts bs).1).drop (k * bs)).take bs =
      (texts.drop (k * bs)).take bs ∧
    ((translate_batch svc D texts bs).1).length = texts.length ∧
    ∀ k', k' * bs < texts.length →
      (((translate_batch svc D texts bs).1).drop (k' * bs)).take bs =
        processBatch
          (svc k' (List.intercalate sepJoin ((texts.drop (k' * bs)).take bs)))
          ((texts.drop (k' * bs)).take bs) := by
  refine ⟨?_, translate_batch_length svc D texts bs h, ?_⟩
  · rw [translate_batch_slice svc D texts bs h k hk, herr]
    rfl
  · intro k' hk'
    exact translate_batch_slice svc D texts bs h k' hk'

/-- Witness for C2 at a concrete input: the service succeeds on batch 0 and
raises on batch 1; batch 1's text passes through unchanged. -/
theorem C2_witness :
    (((translate_batch
        (fun k _ => if k = 0 then Except.ok "A---SEPARATOR---B".toList else Except.error ())
        (1/2) ["t1".toList, "t2".toList, "t3".toList] 2).1).drop (1 * 2)).take 2 =
      ((["t1".toList, "t2".toList, "t3".toList].drop (1 * 2)).take 2) := by
  exact (C2_batch_error_fallback
    (fun k _ => if k = 0 then Except.ok "A---SEPARATOR---B".toList else Except.error ())
    (1/2) ["t1".toList, "t2".toList, "t3".toList] 2 (by decide) 1 (by decide) rfl).1

/-- C3 (code bug): a block with a valid timing line whose only text line is
an artifact phrase is *not* fully dropped by `_clean_vtt_block` — the
cleaner keeps the timing line and returns `should_keep = True`, although the
module's own docstring and its test
`test_clean_vtt_block_with_artifacts` (asserting `(False, [])`) say the
whole entry must vanish.  This theorem evaluates the code's model at that
failing input. -/
theorem C3_artifact_block_keeps_timing :
    clean_vtt_block ["00:00:01.000 --> 00:00:05.000".toList,
      "Sau đây là bản dịch".toList] true true =
      (true, ["00:00:01.000 --> 00:00:05.000".toList]) := by decide

/-- C9 counterexample: the computed inter-batch delay is
`max(D, D * (1 - bs/200))`, which is never strictly below the configured
base delay `D` — for no batch size does the delay scale down. -/
theorem C9_counterexample : ¬ ∃ (D : ℚ) (bs : Nat), rateDelay D bs < D := by
  rintro ⟨D, bs, hlt⟩
  exact absurd (rateDelay_ge D bs) (not_le.mpr hlt)

/-- C9 (amended): when every batch's service call succeeds, the translator
sleeps `rateDelay D bs` once per inter-batch boundary (and not after the
last batch); for a nonnegative configured delay the computed value equals
the base delay for every batch size (the `max` clamps the scaled-down
term), and with more than one batch at least one delay is inserted.  A
batch whose service call raises skips the sleep — the `time.sleep` is
inside the `try:` — so with an always-raising service no delay is slept at
all. -/
theorem C9_rate_limit_delay (svc : Nat → List Char → Except Unit (List Char))
    (D : ℚ) (texts : List (List Char)) (bs : Nat) (h : 0 < bs) (hD : 0 ≤ D)
    (hmulti : bs < texts.length)
    (hok : ∀ k s, ∃ b, svc k s = Except.ok b) :
    (translate_batch svc D texts bs).2 =
      List.replicate (numBatches texts.length bs - 1) (rateDelay D bs) ∧
    rateDelay D bs = D ∧ 1 ≤ numBatches texts.length bs - 1 ∧
    ∀ svcE : Nat → List Char → Except Unit (List Char),
      (∀ k s, svcE k s = Except.error ()) →
      (translate_batch svcE D texts bs).2 = [] := by
  refine ⟨translate_batch_delays svc D texts bs h hok, rateDelay_eq D bs hD, ?_,
    fun svcE herr => translate_batch_delays_error svcE D texts bs herr⟩
  rw [numBatches_sub_one h (by omega)]
  rw [Nat.one_le_div_iff h]
  omega

/-- Witness for C9 at a concrete input: three texts, batch size 2, base
delay 1/2, an always-succeeding service (one delay slept) and an
always-raising one (no delay slept). -/
theorem C9_witness :
    (translate_batch (fun _ _ => Except.ok "X".toList) (1/2)
        ["t1".toList, "t2".toList, "t3".toList] 2).2 =
      List.replicate (numBatches 3 2 - 1) (rateDelay (1/2) 2) ∧
    rateDelay (1/2) 2 = 1/2 ∧
    (translate_batch (fun _ _ => Except.error ()) (1/2)
        ["t1".toList, "t2".toList, "t3".toList] 2).2 = [] := by
  have := C9_rate_limit_delay (fun _ _ => Except.ok "X".toList) (1/2)
    ["t1".toList, "t2".toList, "t3".toList] 2 (by decide) (by norm_num) (by decide)
    (fun k s => ⟨"X".toList, rfl⟩)
  exact ⟨this.1, this.2.1, this.2.2.2 (fun _ _ => Except.error ()) (fun k s => rfl)⟩

/-! ### Tag-stripping and whitespace-normalisation lemmas (cleaner) -/

/-- No genuine angle-bracket tag remains: every bracketed span that occurs
as a substring must already contain a `>` in its interior. -/
def NoTagIn (s : List Char) : Prop :=
  ∀ m : List Char, ('<' :: (m ++ ['>'])) <:+: s → '>' ∈ m

theorem NoTagIn_mono {u t : List Char} (h : u <:+: t) (ht : NoTagIn t) :
    NoTagIn u :=
  fun m hm => ht m (hm.trans h)

theorem NoTagIn_nil : NoTagIn [] := by
  intro m hm
  have := List.eq_nil_of_infix_nil hm
  simp at this

theorem afterGt_none {s : List Char} (h : afterGt s = none) : '>' ∉ s := by
  induction s with
  | nil => simp
  | cons c rest ih =>
    unfold afterGt at h
    split at h
    · exact absurd h (by simp)
    · rename_i hc
      intro hm
      rcases List.mem_cons.mp hm with h' | h'
      · exact hc h'.symm
      · exact ih h h'

theorem noTagIn_cons_of_ne {c : Char} {t : List Char} (hc : c ≠ '<')
    (ht : NoTagIn t) : NoTagIn (c :: t) := by
  intro m hm
  rw [List.infix_cons_iff] at hm
  rcases hm with hm | hm
  · exfalso
    rcases hm with ⟨u, hu⟩
    rw [List.cons_append] at hu
    simp only [List.cons.injEq] at hu
    exact hc hu.1.symm
  · exact ht m hm

theorem subHtmlTags_nil : subHtmlTags [] = [] := by rw [subHtmlTags]

theorem collapseWs_nil : collapseWs [] = [] := by rw [collapseWs]

theorem noTag_subHtmlTags_aux : ∀ (n : Nat) (s : List Char), s.length ≤ n →
    NoTagIn (subHtmlTags s) := by
  intro n
  induction n with
  | zero =>
    intro s h
    have : s = [] := List.eq_nil_of_length_eq_zero (by omega)
    subst this
    rw [subHtmlTags_nil]
    exact NoTagIn_nil
  | succ n ih =>
    intro s h
    cases s with
    | nil =>
      rw [subHtmlTags_nil]
      exact NoTagIn_nil
    | cons c rest =>
      by_cases hc : c = '<'
      · subst hc
        rw [subHtmlTags, if_pos rfl]
        rcases hm : afterGt rest with _ | rest2
        · intro m hinf
          exfalso
          have hnot := afterGt_none hm
          have hmem : '>' ∈ '<' :: rest := hinf.subset (by simp)
          rcases List.mem_cons.mp hmem with h' | h'
          · exact absurd h'.symm (by decide)
          · exact hnot h'
        · have hlt := afterGt_length hm
          exact ih rest2 (by simp at h; omega)
      · rw [subHtmlTags, if_neg hc]
        exact noTagIn_cons_of_ne hc (ih rest (by simp at h; omega))

theorem noTag_subHtmlTags (s : List Char) : NoTagIn (subHtmlTags s) :=
  noTag_subHtmlTags_aux s.length s le_rfl

theorem collapse_prefix_pullback_aux :
    ∀ (n : Nat) (t : List Char), t.length ≤ n → ∀ {m : List Char}, '>' ∉ m →
      (m ++ ['>']) <+: collapseWs t →
      ∃ m2 : List Char, '>' ∉ m2 ∧ (m2 ++ ['>']) <+: t := by
  intro n
  induction n with
  | zero =>
    intro t h m hm hp
    exfalso
    have ht : t = [] := List.eq_nil_of_length_eq_zero (by omega)
    subst ht
    rw [collapseWs_nil] at hp
    rcases hp with ⟨u, hu⟩
    simp at hu
  | succ n ih =>
    intro t h
    cases t with
    | nil =>
      intro m hm hp
      exfalso
      rw [collapseWs_nil] at hp
      rcases hp with ⟨u, hu⟩
      simp at hu
    | cons a r =>
      intro m hm hp
      by_cases ha : pyIsSpace a
      · rw [collapseWs, if_pos ha] at hp
        cases m with
        | nil =>
          exfalso
          rcases hp with ⟨u, hu⟩
          rw [List.nil_append, List.cons_append] at hu
          simp only [List.cons.injEq] at hu
          exact absurd hu.1.symm (by decide)
        | cons b m' =>
          rw [List.cons_append] at hp
          rw [List.cons_prefix_cons] at hp
          obtain ⟨hb, hp'⟩ := hp
          have hlen : (r.dropWhile pyIsSpace).length ≤ n := by
            have := (List.dropWhile_sublist (l := r) pyIsSpace).length_le
            simp at h
            omega
          obtain ⟨m2, hm2, hpref⟩ := ih _ hlen
            (fun hx => hm (List.mem_cons_of_mem b hx)) hp'
          refine ⟨a :: (r.takeWhile pyIsSpace ++ m2), ?_, ?_⟩
          · intro hx
            rcases List.mem_cons.mp hx with h' | h'
            · rw [← h'] at ha
              exact absurd ha (by decide)
            · rcases List.mem_append.mp h' with h'' | h''
              · have hsp := List.mem_takeWhile_imp h''
                exact absurd hsp (by decide)
              · exact hm2 h''
          · rw [List.cons_append]
            apply List.cons_prefix_cons.mpr
            refine ⟨rfl, ?_⟩
            rcases hpref with ⟨u, hu⟩
            refine ⟨u, ?_⟩
            conv_rhs => rw [← List.takeWhile_append_dropWhile (p := pyIsSpace) (l := r)]
            rw [← hu]
            simp [List.append_assoc]
      · rw [collapseWs, if_neg ha] at hp
        cases m with
        | nil =>
          rw [List.nil_append] at hp
          rcases hp with ⟨u, hu⟩
          rw [List.singleton_append] at hu
          simp only [List.cons.injEq] at hu
          exact ⟨[], by simp, ⟨r, by rw [List.nil_append, List.singleton_append, hu.1]⟩⟩
        | cons b m' =>
          rw [List.cons_append, List.cons_prefix_cons] at hp
          obtain ⟨hb, hp'⟩ := hp
          obtain ⟨m2, hm2, hpref⟩ := ih r (by simp at h; omega)
            (fun hx => hm (List.mem_cons_of_mem b hx)) hp'
          refine ⟨b :: m2, ?_, ?_⟩
          · intro hx
            rcases List.mem_cons.mp hx with h' | h'
            · exact hm (h' ▸ List.mem_cons_self b m')
            · exact hm2 h'
          · rw [List.cons_append]
            subst hb
            exact List.cons_prefix_cons.mpr ⟨rfl, hpref⟩

theorem collapse_prefix_pullback (t : List Char) {m : List Char} (hm : '>' ∉ m)
    (hp : (m ++ ['>']) <+: collapseWs t) :
    ∃ m2 : List Char, '>' ∉ m2 ∧ (m2 ++ ['>']) <+: t :=
  collapse_prefix_pullback_aux t.length t le_rfl hm hp

theorem collapse_noTag_aux : ∀ (n : Nat) (t : List Char), t.length ≤ n →
    NoTagIn t → NoTagIn (collapseWs t) := by
  intro n
  induction n with
  | zero =>
    intro t h ht
    have : t = [] := List.eq_nil_of_length_eq_zero (by omega)
    subst this
    rw [collapseWs_nil]
    exact NoTagIn_nil
  | succ n ih =>
    intro t h ht
    cases t with
    | nil =>
      rw [collapseWs_nil]
      exact NoTagIn_nil
    | cons a r =>
      by_cases ha : pyIsSpace a
      · rw [collapseWs, if_pos ha]
        apply noTagIn_cons_of_ne (by decide)
        have hsub : NoTagIn (r.dropWhile pyIsSpace) :=
          NoTagIn_mono ((List.dropWhile_suffix _).isInfix.trans
            (List.infix_cons List.infix_rfl)) ht
        refine ih _ ?_ hsub
        have := (List.dropWhile_sublist (l := r) pyIsSpace).length_le
        simp at h
        omega
      · rw [collapseWs, if_neg ha]
        intro m hm
        rw [List.infix_cons_iff] at hm
        rcases hm with hm | hm
        · rw [List.cons_prefix_cons] at hm
          obtain ⟨hb, hp'⟩ := hm
          by_cases hgt : '>' ∈ m
          · exact hgt
          · exfalso
            obtain ⟨m2, hm2, hpref⟩ := collapse_prefix_pullback r hgt hp'
            have : '>' ∈ m2 := ht m2 (by
              rw [← hb]
              exact (List.cons_prefix_cons.mpr ⟨rfl, hpref⟩).isInfix)
            exact hm2 this
        · exact ih r (by simp at h; omega)
            (NoTagIn_mono (List.infix_cons List.infix_rfl) ht) m hm

theorem collapse_noTag (t : List Char) (ht : NoTagIn t) : NoTagIn (collapseWs t) :=
  collapse_noTag_aux t.length t le_rfl ht

theorem collapse_space_only_aux : ∀ (n : Nat) (t : List Char), t.length ≤ n →
    ∀ c ∈ collapseWs t, pyIsSpace c = true → c = ' ' := by
  intro n
  induction n with
  | zero =>
    intro t h c hc
    have : t = [] := List.eq_nil_of_length_eq_zero (by omega)
    subst this
    rw [collapseWs_nil] at hc
    simp at hc
  | succ n ih =>
    intro t h c hc hsp
    cases t with
    | nil =>
      rw [collapseWs_nil] at hc
      simp at hc
    | cons a r =>
      by_cases ha : pyIsSpace a
      · rw [collapseWs, if_pos ha] at hc
        rcases List.mem_cons.mp hc with h' | h'
        · exact h'
        · refine ih _ ?_ c h' hsp
          have := (List.dropWhile_sublist (l := r) pyIsSpace).length_le
          simp at h
          omega
      · rw [collapseWs, if_neg ha] at hc
        rcases List.mem_cons.mp hc with h' | h'
        · subst h'
          exact absurd hsp (by simp [ha])
        · exact ih r (by simp at h; omega) c h' hsp

theorem collapse_space_only (t : List Char) (c : Char) (hc : c ∈ collapseWs t)
    (hsp : pyIsSpace c = true) : c = ' ' :=
  collapse_space_only_aux t.length t le_rfl c hc hsp

theorem collapse_head_not_space {t : List Char}
    (htop : ∀ c, t.head? = some c → pyIsSpace c = false) :
    ∀ c, (collapseWs t).head? = some c → pyIsSpace c = false := by
  intro c hc
  cases t with
  | nil =>
    rw [collapseWs_nil] at hc
    simp at hc
  | cons a r =>
    have ha : pyIsSpace a = false := htop a rfl
    rw [collapseWs, if_neg (by simp [ha])] at hc
    simp only [List.head?_cons, Option.some.injEq] at hc
    subst hc
    exact ha

theorem collapse_no_double_aux : ∀ (n : Nat) (t : List Char), t.length ≤ n →
    ¬ ([' ', ' '] <:+: collapseWs t) := by
  intro n
  induction n with
  | zero =>
    intro t h hinf
    have : t = [] := List.eq_nil_of_length_eq_zero (by omega)
    subst this
    rw [collapseWs_nil] at hinf
    have := List.eq_nil_of_infix_nil hinf
    simp at this
  | succ n ih =>
    intro t h hinf
    cases t with
    | nil =>
      rw [collapseWs_nil] at hinf
      have := List.eq_nil_of_infix_nil hinf
      simp at this
    | cons a r =>
      by_cases ha : pyIsSpace a
      · rw [collapseWs, if_pos ha] at hinf
        rw [List.infix_cons_iff] at hinf
        rcases hinf with hinf | hinf
        · rw [show ([' ', ' '] : List Char) = ' ' :: [' '] from rfl,
            List.cons_prefix_cons] at hinf
          obtain ⟨-, hpref⟩ := hinf
          rcases hpref with ⟨u, hu⟩
          rw [List.singleton_append] at hu
          have hhd : (collapseWs (r.dropWhile pyIsSpace)).head? = some ' ' := by
            rw [← hu]
            simp
          have := collapse_head_not_space
            (fun c hc => head?_dropWhile_not pyIsSpace r hc) ' ' hhd
          exact absurd this (by decide)
        · refine ih _ ?_ hinf
          have := (List.dropWhile_sublist (l := r) pyIsSpace).length_le
          simp at h
          omega
      · rw [collapseWs, if_neg ha] at hinf
        rw [List.infix_cons_iff] at hinf
        rcases hinf with hinf | hinf
        · rw [show ([' ', ' '] : List Char) = ' ' :: [' '] from rfl,
            List.cons_prefix_cons] at hinf
          obtain ⟨hsp, -⟩ := hinf
          rw [← hsp] at ha
          exact ha (by decide)
        · exact ih r (by simp at h; omega) hinf

theorem collapse_no_double (t : List Char) : ¬ ([' ', ' '] <:+: collapseWs t) :=
  collapse_no_double_aux t.length t le_rfl

unseal subTsTags subHtmlTags collapseWs splitSep splitBlocksAux reconcilePad translateGo

/-- C7: `clean_html_tags` strips all angle-bracket tags (timestamp tags
included), collapses the whitespace runs left behind into single spaces and
trims the ends: the spec's example maps as stated, and for every input the
result contains no bracketed tag span without an interior `>`, no
whitespace character other than `' '`, no two adjacent spaces, and no
leading or trailing whitespace. -/
theorem C7_clean_html_tags :
    clean_html_tags "into<00:03:09.120><c> a</c> mathematical".toList =
      "into a mathematical".toList ∧
    ∀ s : List Char,
      NoTagIn (clean_html_tags s) ∧
      (∀ c ∈ clean_html_tags s, pyIsSpace c = true → c = ' ') ∧
      ¬ ([' ', ' '] <:+: clean_html_tags s) ∧
      (∀ c, (clean_html_tags s).head? = some c → pyIsSpace c = false) ∧
      (∀ c, (clean_html_tags s).getLast? = some c → pyIsSpace c = false) := by
  constructor
  · decide
  · intro s
    unfold clean_html_tags
    refine ⟨?_, ?_, ?_, fun c h => pyStrip_head h, fun c h => pyStrip_getLast h⟩
    · exact NoTagIn_mono (pyStrip_infix_self _) (collapse_noTag _ (noTag_subHtmlTags _))
    · intro c hc hsp
      exact collapse_space_only _ c ((pyStrip_infix_self _).subset hc) hsp
    · intro hinf
      exact collapse_no_double _ (hinf.trans (pyStrip_infix_self _))

/-- C4 counterexample: with target language "Spanish", a folder holding the
natively fetched Spanish caption `video.es.vtt` (its stem ends with the
target's tag `.es`) makes the orchestrator return the empty list — the
native-caption check is hardcoded to the `.vi` tag, so the claimed behaviour
fails for non-Vietnamese targets even with a working translator available. -/
theorem C4_counterexample :
    List.isSuffixOf ('.' :: get_language_code "Spanish".toList)
      (pyStem "video.es.vtt".toList) = true ∧
    (translate_subtitle_files ["video.es.vtt".toList] "Spanish".toList true true
      (fun f => some f)).result = [] := by
  constructor
  · decide
  · decide

/-- C4 (amended): the native-caption shortcut is hardcoded to Vietnamese:
whenever the folder holds a `.vtt` file whose stem ends with `.vi`, the
orchestrator returns exactly those files and invokes the translator on
nothing, for every target language and regardless of API key or client
state. -/
theorem C4_native_vietnamese_skips_translator (files : List (List Char))
    (target : List Char) (api_key client_ok : Bool)
    (tr : List Char → Option (List Char))
    (hn : ((files.filter fun f => List.isSuffixOf ".vtt".toList f).filter
        fun f => List.isSuffixOf ".vi".toList (pyStem f)) ≠ []) :
    translate_subtitle_files files target api_key client_ok tr =
      ⟨(files.filter fun f => List.isSuffixOf ".vtt".toList f).filter
          (fun f => List.isSuffixOf ".vi".toList (pyStem f)), []⟩ := by
  unfold translate_subtitle_files
  have h1 : (files.filter fun f => List.isSuffixOf ".vtt".toList f) ≠ [] := by
    intro he
    exact hn (by rw [he, List.filter_nil])
  rw [if_neg (by simpa [List.isEmpty_iff] using h1),
    if_pos (by simpa [List.isEmpty_iff] using hn)]

/-- Witness for C4 at a concrete input: a folder with a native Vietnamese
caption next to the English one. -/
theorem C4_witness :
    translate_subtitle_files ["video.vi.vtt".toList, "video.en.vtt".toList]
        "Vietnamese".toList false false (fun f => some f) =
      ⟨["video.vi.vtt".toList], []⟩ := by
  have := C4_native_vietnamese_skips_translator
    ["video.vi.vtt".toList, "video.en.vtt".toList] "Vietnamese".toList
    false false (fun f => some f) (by decide)
  rw [this]
  decide

/-- C8 counterexample: the source `video.fr.vtt` carries the trailing
language tag `.fr` (the table code for French), yet deriving the destination
name for target "Vietnamese" yields `video.fr.vi.vtt` — the tag is not
stripped, while the claim dictates `video.vi.vtt`. -/
theorem C8_counterexample :
    translatedName "video.fr.vtt".toList "Vietnamese".toList =
      "video.fr.vi.vtt".toList ∧
    ".fr".toList = '.' :: get_language_code "French".toList ∧
    List.isSuffixOf ".fr".toList (pyStem "video.fr.vtt".toList) = true ∧
    translatedName "video.fr.vtt".toList "Vietnamese".toList ≠
      "video.vi.vtt".toList := by
  refine ⟨by decide, by decide, by decide, by decide⟩

/-- C8 (amended): the writer strips only a trailing `.en` suffix from the
source stem (other language tags are kept) and appends the tag from the
fixed lookup; `video.en.vtt` with target "Vietnamese" yields
`video.vi.vtt`, and an unrecognized target language maps to the fallback
tag `trans` instead of raising. -/
theorem C8_filename_derivation :
    (∀ base target, translatedName (base ++ ".en.vtt".toList) target =
      base ++ '.' :: (get_language_code target ++ ".vtt".toList)) ∧
    translatedName "video.en.vtt".toList "Vietnamese".toList =
      "video.vi.vtt".toList ∧
    ∀ target, languageCodes.lookup (pyLower target) = none →
      get_language_code target = "trans".toList := by
  refine ⟨?_, by decide, ?_⟩
  · intro base target
    unfold translatedName
    rw [pyStem_en_vtt, stripEn_append]
  · intro target h
    unfold get_language_code
    rw [h]

/-- Witness for C8 at concrete inputs, including an unrecognized target
language. -/
theorem C8_witness :
    translatedName ("clip".toList ++ ".en.vtt".toList) "Spanish".toList =
      "clip".toList ++ '.' :: (get_language_code "Spanish".toList ++ ".vtt".toList) ∧
    get_language_code "Klingon".toList = "trans".toList :=
  ⟨C8_filename_derivation.1 "clip".toList "Spanish".toList,
   C8_filename_derivation.2.2 "Klingon".toList (by decide)⟩

/-- Witness for C7 at a concrete input: the cleaned text has no double
space. -/
theorem C7_witness :
    ¬ ([' ', ' '] <:+: clean_html_tags "a  \t b".toList) :=
  (C7_clean_html_tags.2 "a  \t b".toList).2.2.1

/-- A raising invocation is never followed by a raising handler call when
the callback never raises twice in a row: the translation pipeline then
returns normally (with `Except.ok`) for every input — no callback exception
reaches the caller. -/
theorem translate_vtt_file_no_escape (srcName content : List Char)
    (svc : Nat → List Char → Except Unit (List Char)) (D : ℚ) (bs : Nat)
    (target : List Char) (cb : Nat → Bool)
    (hc : ∀ j, cb j = true → cb (j + 1) = false) :
    ∃ r, translate_vtt_file srcName content svc D bs target cb = Except.ok r := by
  unfold translate_vtt_file
  by_cases h0 : cb 0
  · refine ⟨none, ?_⟩
    rw [if_pos h0]
    unfold exceptHandler
    rw [if_neg (by simp [hc 0 h0])]
  · rw [if_neg h0]
    simp only
    split
    · exact ⟨none, rfl⟩
    · split
      · exact ⟨none, rfl⟩
      · by_cases h1 : cb 1
        · rw [if_pos h1]
          refine ⟨none, ?_⟩
          unfold exceptHandler
          rw [if_neg (by simp [hc 1 h1])]
        · rw [if_neg h1]
          rcases hfb : firstBatchRaise cb (numBatches
            ((((parse_vtt_file content).filter fun e =>
              (pyStrip e.text).isEmpty = false).map (·.text)).length) bs) with _ | t
          · simp only [hfb]
            split
            · exact ⟨none, rfl⟩
            · rename_i hlen
              by_cases h2 : cb (2 + numBatches ((((parse_vtt_file content).filter fun e =>
                  (pyStrip e.text).isEmpty = false).map (·.text)).length) bs)
              · rw [if_pos h2]
                refine ⟨none, ?_⟩
                unfold exceptHandler
                rw [if_neg (by simpa using hc _ h2)]
              · rw [if_neg h2]
                by_cases h3 : cb (2 + numBatches ((((parse_vtt_file content).filter fun e =>
                    (pyStrip e.text).isEmpty = false).map (·.text)).length) bs + 1)
                · rw [if_pos h3]
                  refine ⟨none, ?_⟩
                  unfold exceptHandler
                  rw [if_neg (by simpa using hc _ h3)]
                · rw [if_neg h3]
                  exact ⟨_, rfl⟩
          · simp only [hfb]
            have ht : cb (2 + t) = true := by
              have := List.find?_some hfb
              simpa using this
            refine ⟨none, ?_⟩
            unfold exceptHandler
            rw [if_neg (by simpa using hc _ ht)]

/-- C6 counterexample: a callback that raises at the very first milestone
("Parsing...") makes `translate_vtt_file` return `None` (the exception is
caught by the outer handler, aborting the file's translation), while the
same input with a never-raising callback returns the written file — the
pipeline's result is not independent of callback exceptions. -/
theorem C6_counterexample :
    translate_vtt_file "v.en.vtt".toList
        "WEBVTT\n\n00:00:01.000 --> 00:00:02.000\nhello\n".toList
        (fun _ _ => Except.ok "xin chao".toList) 0 25 "Vietnamese".toList
        (fun k => k == 0) = Except.ok none ∧
    translate_vtt_file "v.en.vtt".toList
        "WEBVTT\n\n00:00:01.000 --> 00:00:02.000\nhello\n".toList
        (fun _ _ => Except.ok "xin chao".toList) 0 25 "Vietnamese".toList
        (fun _ => false) =
      Except.ok (some ("v.vi.vtt".toList,
        "WEBVTT\n\n00:00:01.000 --> 00:00:02.000\nxin chao\n".toList)) ∧
    (Except.ok none : Except Unit (Option (List Char × List Char))) ≠
      Except.ok (some ("v.vi.vtt".toList,
        "WEBVTT\n\n00:00:01.000 --> 00:00:02.000\nxin chao\n".toList)) := by
  refine ⟨by rfl, by rfl, by simp⟩

/-- C6 (amended): in the download progress hook a callback exception is
caught and ignored — the hook's resulting state is independent of whether
the callback raises.  In the translation pipeline, milestone invocations
are not individually guarded: an exception at a milestone is caught by the
outer handler, which notifies the callback once more and returns `None`
(aborting that file's translation); it escapes only if that final
notification raises too, so a callback that never raises twice in a row can
never crash the pipeline. -/
theorem C6_callback_exceptions :
    (∀ (now : ℚ) (d : HookDict) (cb cb2 : DownloadProgress → Bool) (s : HookState),
      progress_hook now d cb s = progress_hook now d cb2 s) ∧
    (∀ (srcName content : List Char) (svc : Nat → List Char → Except Unit (List Char))
      (D : ℚ) (bs : Nat) (target : List Char) (cb : Nat → Bool),
      cb 0 = true → cb 1 = false →
      translate_vtt_file srcName content svc D bs target cb = Except.ok none) ∧
    (∀ (srcName content : List Char) (svc : Nat → List Char → Except Unit (List Char))
      (D : ℚ) (bs : Nat) (target : List Char) (cb : Nat → Bool),
      cb 0 = true → cb 1 = true →
      translate_vtt_file srcName content svc D bs target cb = Except.error ()) ∧
    (∀ (srcName content : List Char) (svc : Nat → List Char → Except Unit (List Char))
      (D : ℚ) (bs : Nat) (target : List Char) (cb : Nat → Bool),
      (∀ j, cb j = true → cb (j + 1) = false) →
      ∃ r, translate_vtt_file srcName content svc D bs target cb = Except.ok r) := by
  refine ⟨fun now d cb cb2 s => rfl, ?_, ?_, ?_⟩
  · intro srcName content svc D bs target cb h0 h1
    unfold translate_vtt_file
    rw [if_pos h0]
    unfold exceptHandler
    rw [if_neg (by simp [h1])]
  · intro srcName content svc D bs target cb h0 h1
    unfold translate_vtt_file
    rw [if_pos h0]
    unfold exceptHandler
    rw [if_pos h1]
  · exact fun srcName content svc D bs target cb hc =>
      translate_vtt_file_no_escape srcName content svc D bs target cb hc

/-- Witness for C6 at a concrete input: a callback raising only at the
parse milestone yields `ok none` (caught, translation aborted, nothing
escapes). -/
theorem C6_witness :
    (fun k => k == 0 : Nat → Bool) 0 = true ∧
    translate_vtt_file "v.en.vtt".toList
        "WEBVTT\n\n00:00:01.000 --> 00:00:02.000\nhello\n".toList
        (fun _ _ => Except.ok "xin chao".toList) 0 25 "Vietnamese".toList
        (fun k => k == 0) = Except.ok none := by
  refine ⟨by decide, ?_⟩
  exact C6_callback_exceptions.2.1 "v.en.vtt".toList
    "WEBVTT\n\n00:00:01.000 --> 00:00:02.000\nhello\n".toList
    (fun _ _ => Except.ok "xin chao".toList) 0 25 "Vietnamese".toList
    (fun k => k == 0) (by decide) (by decide)

/-- C10: every parser-produced entry has text with at least one
non-whitespace character (its stripped form is itself and nonempty) and
start/end times of the exact `HH:MM:SS.mmm` shape (the timestamp pattern
matches the whole string); consequently the writer, given the parser's
entries and at least as many translated texts, never takes its fallback
branch and its running cursor consumes exactly one translated text per
entry — the output is the entry-by-entry zip with the translated list. -/
theorem C10_parser_invariants (content : List Char) :
    (∀ e ∈ parse_vtt_file content,
      pyStrip e.text = e.text ∧ e.text ≠ [] ∧
      matchTimestamp e.start_time = some (e.start_time, []) ∧
      matchTimestamp e.end_time = some (e.end_time, [])) ∧
    (∀ ts : List (List Char), (parse_vtt_file content).length ≤ ts.length →
      buildBody ts (parse_vtt_file content) 0 =
        (List.zipWith (fun e t => [formatTiming e, t, []])
          (parse_vtt_file content) ts).flatten) := by
  constructor
  · intro e he
    obtain ⟨h1, h2, h3, h4, h5, h6⟩ := parse_vtt_good he
    exact ⟨h4, h3, h1, h2⟩
  · intro ts hlen
    have hb := buildBody_zip ts (parse_vtt_file content) 0 ?good (by omega)
    · simpa using hb
    case good =>
      intro e he
      have hg := parse_vtt_good he
      rw [hg.2.2.2.1]
      simpa [List.isEmpty_iff] using hg.2.2.1

/-- Witness for C10 at a concrete input: one entry, one translated text. -/
theorem C10_witness :
    buildBody ["xin chao".toList]
        (parse_vtt_file "WEBVTT\n\n00:00:01.000 --> 00:00:02.000\nhello\n".toList) 0 =
      (List.zipWith (fun e t => [formatTiming e, t, []])
        (parse_vtt_file "WEBVTT\n\n00:00:01.000 --> 00:00:02.000\nhello\n".toList)
        ["xin chao".toList]).flatten :=
  (C10_parser_invariants
    "WEBVTT\n\n00:00:01.000 --> 00:00:02.000\nhello\n".toList).2
    ["xin chao".toList] (by decide)

/-- C5 counterexample: the parse-then-write pass is not idempotent on every
content.  For a cue whose text line is `" 12"`, the writer emits the stripped
text `"12"`; on re-parse that line is all digits, so it is skipped as a cue
index and the entry has no text lines left — the entry is dropped.  Writing
a second time therefore yields only the bare header, different from the first
written output. -/
theorem C5_counterexample :
    roundtrip (roundtrip "WEBVTT\n\n00:00:01.000 --> 00:00:02.000\n 12\n".toList) ≠
      roundtrip "WEBVTT\n\n00:00:01.000 --> 00:00:02.000\n 12\n".toList ∧
    (parse_vtt_file
      (roundtrip "WEBVTT\n\n00:00:01.000 --> 00:00:02.000\n 12\n".toList)).length = 0 ∧
    (parse_vtt_file "WEBVTT\n\n00:00:01.000 --> 00:00:02.000\n 12\n".toList).length = 1 := by
  refine ⟨?_, rfl, rfl⟩
  rw [show roundtrip (roundtrip "WEBVTT\n\n00:00:01.000 --> 00:00:02.000\n 12\n".toList) =
    "WEBVTT\n".toList from rfl]
  rw [show roundtrip "WEBVTT\n\n00:00:01.000 --> 00:00:02.000\n 12\n".toList =
    "WEBVTT\n\n00:00:01.000 --> 00:00:02.000\n12\n".toList from rfl]
  decide

/-- C5 (amended): provided no parsed entry's joined text is a pure digit
string (such a text line would be re-parsed as a cue index and dropped),
the parse-then-write pass is idempotent: re-parsing the written output
yields entries with the same start time, end time and text as the original
parse, and writing a second time reproduces the first written content
exactly. -/
theorem C5_roundtrip_idempotent (content : List Char)
    (hd : ∀ e ∈ parse_vtt_file content, pyIsDigit e.text = false) :
    (parse_vtt_file (roundtrip content)).map
        (fun e => (e.start_time, e.end_time, e.text)) =
      (parse_vtt_file content).map (fun e => (e.start_time, e.end_time, e.text)) ∧
    roundtrip (roundtrip content) = roundtrip content := by
  have hrt := parse_roundtrip content hd
  constructor
  · rw [hrt]
    exact reIndexed_map_proj 1 (parse_vtt_file content)
  · have hfilter2 : ((parse_vtt_file (roundtrip content)).filter
        fun e => (pyStrip e.text).isEmpty = false) =
        parse_vtt_file (roundtrip content) := by
      apply List.filter_eq_self.mpr
      intro x hx
      rw [hrt] at hx
      obtain ⟨e, he, _, _, ht⟩ := reIndexed_mem hx
      have hg := parse_vtt_good he
      simp [ht, hg.2.2.2.1, List.isEmpty_iff, hg.2.2.1]
    have hfilter1 : ((parse_vtt_file content).filter
        fun e => (pyStrip e.text).isEmpty = false) = parse_vtt_file content := by
      apply List.filter_eq_self.mpr
      intro e he
      have hg := parse_vtt_good he
      simp [hg.2.2.2.1, List.isEmpty_iff, hg.2.2.1]
    show vttContent (parse_vtt_file (roundtrip content))
        (((parse_vtt_file (roundtrip content)).filter
          fun e => (pyStrip e.text).isEmpty = false).map (·.text)) =
      vttContent (parse_vtt_file content)
        (((parse_vtt_file content).filter
          fun e => (pyStrip e.text).isEmpty = false).map (·.text))
    rw [hfilter2, hfilter1, hrt, reIndexed_map_text]
    exact vttContent_proj _ _ _ (reIndexed_map_proj 1 (parse_vtt_file content))

/-- Witness for C5 at a concrete input: one cue with non-digit text; the
hypothesis holds and the roundtrip is idempotent there. -/
theorem C5_witness :
    (∀ e ∈ parse_vtt_file "WEBVTT\n\n00:00:01.000 --> 00:00:02.000\nHello\n".toList,
      pyIsDigit e.text = false) ∧
    ((parse_vtt_file
        (roundtrip "WEBVTT\n\n00:00:01.000 --> 00:00:02.000\nHello\n".toList)).map
        (fun e => (e.start_time, e.end_time, e.text)) =
      (parse_vtt_file "WEBVTT\n\n00:00:01.000 --> 00:00:02.000\nHello\n".toList).map
        (fun e => (e.start_time, e.end_time, e.text)) ∧
    roundtrip (roundtrip "WEBVTT\n\n00:00:01.000 --> 00:00:02.000\nHello\n".toList) =
      roundtrip "WEBVTT\n\n00:00:01.000 --> 00:00:02.000\nHello\n".toList) :=
  ⟨by decide,
    C5_roundtrip_idempotent "WEBVTT\n\n00:00:01.000 --> 00:00:02.000\nHello\n".toList
      (by decide)⟩

end YTD
